import Mathlib

/-!
Shallow embedding of the binary-CSP solver library (csps.py):

* `ProblemaCSP`: the constraint-graph capability (variable list, neighbor
  map, binary compatibility predicate).  The mutable domain map `D` of the
  Python object is made an explicit state parameter of type `DMap`, and the
  mutable attribute `csp.backtracking` an explicit counter threaded through
  the recursion.
* `consistencia`: the consistency enforcer at levels 0 (node check + domain
  collapse), 1 (forward checking) and 2 (the AC-3 style worklist loop of
  the source, which re-enqueues pairs `(x_a, x_j)` after a revision of
  `x_a`).  It returns either `fail D` (failure; `D` is the domain map after
  the undo loop of the source ran) or `ok D red` (success; `red` is the
  reversal record `dom_red`).
* `asignacion_grafo_restriccion` / `asignacion_completa`: the recursive
  backtracking engine and its entry point, with the variable-selection and
  value-ordering heuristics `selecciona_variable` / `ordena_valores`.
* `minimos_conflictos`: the min-conflicts local search.  Calls to
  `random.choice` are modelled by an oracle `Nat → Nat` consumed one tick
  per call; `random.choice` on an empty list (an `IndexError` in Python)
  and the `NameError` reachable through the uninitialized `repeticiones`
  are modelled by the `err` result.

Python `set` iteration order is unspecified; everywhere the source iterates
over a set this embedding fixes the ascending order (`sortFin`),
and the worklist `pendientes` (a Python set with arbitrary `pop`) becomes a
FIFO list without duplicates.  Dictionaries become association lists (the
partial assignment, newest binding first) or functions (`DMap`, the
reversal record `RMap`, defaulting to `∅`).
-/

/-- A partial assignment: association list, newest binding first. -/
abbrev Asg := List (Nat × Nat)

/-- Domain map state: variable to current candidate set (`csp.D`). -/
abbrev DMap := Nat → Finset Nat

/-- Reversal record (`dom_red`): variable to set of removed values. -/
abbrev RMap := Nat → Finset Nat

/-- The constraint-graph capability of the source (`ProblemaCSP`), with the
mutable domain map factored out into an explicit `DMap` state. -/
structure ProblemaCSP where
  X : List Nat
  N : Nat → Finset Nat
  restriccion_binaria : Nat → Nat → Nat → Nat → Bool

/-- Keys of an association-list assignment (`asignacion.keys()`). -/
def keys (a : Asg) : List Nat := a.map Prod.fst

/-- Value of a variable in an assignment (`asignacion[x]`; total with junk
default 0, only ever read at assigned variables). -/
def lookupV (a : Asg) (x : Nat) : Nat :=
  ((a.find? fun p => p.1 == x).map Prod.snd).getD 0

/-- Pointwise update of a domain map at one variable. -/
def updD (D : DMap) (x : Nat) (s : Finset Nat) : DMap :=
  fun y => if y = x then s else D y

/-- The restoration loop of the source
(`for valor in dominio_reducido: csp.D[valor].update(...)`), pointwise. -/
def restoreD (D : DMap) (red : RMap) : DMap :=
  fun y => D y ∪ red y

/-- Ascending enumeration of a finite set by repeated minimum extraction
(the embedding's fixed convention for iterating a Python set). -/
def sortFinAux : Nat → Finset Nat → List Nat
  | 0, _ => []
  | fuel + 1, s =>
    match s.min with
    | none => []
    | some m => m :: sortFinAux fuel (s.erase m)

/-- Ascending list of the elements of a finite set. -/
def sortFin (s : Finset Nat) : List Nat := sortFinAux s.card s

/-- Result of one `consistencia` call: failure returns the domain map after
the in-call undo loop, success returns the new domains and the reversal
record `dom_red`. -/
inductive CRes where
  | fail (D : DMap)
  | ok (D : DMap) (red : RMap)

/-- Level-0 check of `consistencia`: the candidate `(x_i, v_i)` against
every already-assigned neighbor. -/
def checkAsg (csp : ProblemaCSP) (asg : Asg) (xi vi : Nat) : Bool :=
  asg.all fun p => !(decide (p.1 ∈ csp.N xi)) || csp.restriccion_binaria xi vi p.1 p.2

/-- Forward-checking loop of `consistencia` (the `consistencia >= 1` block),
over the neighbor list in ascending order.  Faithful details: the reversal
entry for a pruned neighbor is overwritten (`dom_red[x_j] = val_set.copy()`),
and the wipe-out test runs even when nothing was pruned. -/
def fcLoop (csp : ProblemaCSP) (asg : Asg) (xi vi : Nat) :
    List Nat → DMap → RMap → CRes
  | [], D, red => .ok D red
  | xj :: rest, D, red =>
    if xj ∈ keys asg then fcLoop csp asg xi vi rest D red
    else
      let valSet := (D xj).filter fun vj => ¬ csp.restriccion_binaria xi vi xj vj
      let red2 := if valSet = ∅ then red else updD red xj valSet
      let D2 := if valSet = ∅ then D else updD D xj (D xj \ valSet)
      if D2 xj = ∅ then .fail (restoreD D2 red2)
      else fcLoop csp asg xi vi rest D2 red2

/-- Support set of a value `va` of `x_a` inside the current domain of `x_b`
(the inner `for v_b ... break` loop of the AC-3 revision). -/
def soporte (csp : ProblemaCSP) (D : DMap) (xa va xb : Nat) : Finset Nat :=
  (D xb).filter fun vb => csp.restriccion_binaria xa va xb vb

/-- Values of `x_a` with no support in `x_b` (the `val_set` of the AC-3
revision). -/
def sinSoporte (csp : ProblemaCSP) (D : DMap) (xa xb : Nat) : Finset Nat :=
  (D xa).filter fun va => soporte csp D xa va xb = ∅

/-- FIFO insertion of worklist pairs that are not already pending
(`pendientes` is a Python set, so present pairs are not duplicated). -/
def pushPend (pend : List (Nat × Nat)) : List (Nat × Nat) → List (Nat × Nat)
  | [] => pend
  | p :: ps => pushPend (if p ∈ pend then pend else pend ++ [p]) ps

/-- Pairs re-enqueued by the source after a revision shrank `D x_a`:
`{(x_a, x_j) for x_j in csp.N[x_a] if x_j not in asg}` (note the order:
`x_a` first, exactly as in the source). -/
def reenqueue (csp : ProblemaCSP) (asg : Asg) (xa : Nat) : List (Nat × Nat) :=
  ((sortFin (csp.N xa)).filter fun xj => xj ∉ keys asg).map fun xj => (xa, xj)

/-- The AC-3 style worklist loop of `consistencia` (the `consistencia == 2`
block), with explicit fuel.  Exhausted fuel behaves like the failure path
(restore and fail); the fuel passed by `consistencia` is proved large
enough under the capability contract. -/
def ac3 (csp : ProblemaCSP) (asg : Asg) :
    Nat → List (Nat × Nat) → DMap → RMap → CRes
  | 0, _, D, red => .fail (restoreD D red)
  | _ + 1, [], D, _red => .ok D _red
  | fuel + 1, (xa, xb) :: rest, D, red =>
    let valSet := sinSoporte csp D xa xb
    if valSet = ∅ then ac3 csp asg fuel rest D red
    else
      let red2 := updD red xa (red xa ∪ valSet)
      let D2 := updD D xa (D xa \ valSet)
      if D2 xa = ∅ then .fail (restoreD D2 red2)
      else ac3 csp asg fuel (pushPend rest (reenqueue csp asg xa)) D2 red2

/-- Initial worklist of the AC-3 block: every ordered pair of unassigned
neighboring variables, in the enumeration order of the embedding. -/
def initPend (csp : ProblemaCSP) (asg : Asg) : List (Nat × Nat) :=
  (csp.X.filter fun xa => xa ∉ keys asg).flatMap fun xa =>
    ((sortFin (csp.N xa)).filter fun xj => xj ∉ keys asg).map fun xj => (xa, xj)

/-- Total size of the current domains of the variables of the graph. -/
def sumDom (csp : ProblemaCSP) (D : DMap) : Nat :=
  (csp.X.map fun x => (D x).card).sum

/-- Fuel passed to the AC-3 loop: strictly more than the decreasing measure
of the loop can consume under the capability contract. -/
def ac3Fuel (csp : ProblemaCSP) (D : DMap) : Nat :=
  (sumDom csp D + 1) * (csp.X.length * csp.X.length + 1) + 1

/-- The consistency enforcer `consistencia(csp, asg, x_i, v_i, lvl)`.
Level-0 node check and domain collapse always run; forward checking when
`1 ≤ lvl`; the AC-3 loop when `lvl = 2`. -/
def consistencia (csp : ProblemaCSP) (D : DMap) (asg : Asg)
    (xi vi : Nat) (lvl : Nat) : CRes :=
  if ¬ checkAsg csp asg xi vi then .fail D
  else
    let red0 : RMap := updD (fun _ => ∅) xi ((D xi).erase vi)
    let D0 : DMap := updD D xi {vi}
    let paso1 : CRes :=
      if 1 ≤ lvl then
        fcLoop csp asg xi vi (sortFin (csp.N xi)) D0 red0
      else .ok D0 red0
    match paso1 with
    | .fail Dr => .fail Dr
    | .ok D1 red1 =>
      if lvl = 2 then ac3 csp asg (ac3Fuel csp D1) (initPend csp asg) D1 red1
      else .ok D1 red1

/-- The compatibility count of `ordena_valores` (its inner `conflictos`):
number of `True` results of the predicate for `(x_i, v)` against every
value in the current domain of every unassigned neighbor (summing booleans
in Python counts the `True`s, so despite its name it counts compatible
pairs, not violations). -/
def conflictos (csp : ProblemaCSP) (D : DMap) (asg : Asg) (xi v : Nat) : Nat :=
  (((sortFin (csp.N xi)).filter fun xj => xj ∉ keys asg).map fun xj =>
    ((D xj).filter fun vj => csp.restriccion_binaria xi v xj vj).card).sum

/-- Value ordering `ordena_valores`: the domain of `x_i` (ascending base
order, the embedding's convention for `list(set)`), stably sorted in
descending order of `conflictos` (`sorted(..., reverse=True)`). -/
def ordena_valores (csp : ProblemaCSP) (D : DMap) (asg : Asg) (xi : Nat) : List Nat :=
  List.insertionSort (fun a b => conflictos csp D asg xi b ≤ conflictos csp D asg xi a)
    (sortFin (D xi))

/-- Variable selection `selecciona_variable`: with an empty assignment the
first variable of maximal degree, otherwise the first unassigned variable
of minimal current domain (`max`/`min` in Python keep the first best item).
Returns `none` exactly where Python `max`/`min` would raise on an empty
sequence (unreachable from the entry point). -/
def selecciona_variable (csp : ProblemaCSP) (D : DMap) (asg : Asg) : Option Nat :=
  match asg with
  | [] =>
    match csp.X with
    | [] => none
    | x :: xs => some (xs.foldl (fun b y => if (csp.N b).card < (csp.N y).card then y else b) x)
  | _ :: _ =>
    match csp.X.filter fun x => x ∉ keys asg with
    | [] => none
    | x :: xs => some (xs.foldl (fun b y => if (D y).card < (D b).card then y else b) x)

/-- Completeness test of the engine (`set(asignacion.keys()) == csp.X`). -/
def completaChk (csp : ProblemaCSP) (asg : Asg) : Bool :=
  (csp.X.all fun x => x ∈ keys asg) && ((keys asg).all fun k => k ∈ csp.X)

/-- The value loop of `asignacion_grafo_restriccion`: try the ordered
candidate values in turn; on enforcer failure count a backtrack and go on;
on success recurse through `recur`, restore the domains from the reversal
record, and propagate a solution or go on.  Exhaustion counts one backtrack
and fails. -/
def tryVals (csp : ProblemaCSP) (lvl : Nat) (var : Nat)
    (recur : DMap → Asg → Nat → Option Asg × DMap × Nat) :
    List Nat → DMap → Asg → Nat → Option Asg × DMap × Nat
  | [], D, _asg, bt => (none, D, bt + 1)
  | v :: rest, D, asg, bt =>
    match consistencia csp D asg var v lvl with
    | .fail Dr => tryVals csp lvl var recur rest Dr asg (bt + 1)
    | .ok D1 red =>
      match recur D1 ((var, v) :: asg) bt with
      | (some a, D2, bt2) => (some a, restoreD D2 red, bt2)
      | (none, D2, bt2) => tryVals csp lvl var recur rest (restoreD D2 red) asg bt2

/-- The recursive backtracking engine `asignacion_grafo_restriccion`, with
fuel (the entry point passes `|X| + 1`, proved sufficient).  State: domain
map, partial assignment and the backtrack counter `csp.backtracking`. -/
def asignacion_grafo_restriccion (csp : ProblemaCSP) (lvl : Nat) :
    Nat → DMap → Asg → Nat → Option Asg × DMap × Nat
  | 0, D, _asg, bt => (none, D, bt)
  | fuel + 1, D, asg, bt =>
    if completaChk csp asg then (some asg, D, bt)
    else
      match selecciona_variable csp D asg with
      | none => (none, D, bt)
      | some var =>
        tryVals csp lvl var (asignacion_grafo_restriccion csp lvl fuel)
          (ordena_valores csp D asg var) D asg bt

/-- Entry point `asignacion_completa`: reset the backtrack counter to zero
and run the engine on the empty assignment. -/
def asignacion_completa (csp : ProblemaCSP) (D : DMap) (lvl : Nat) :
    Option Asg × DMap × Nat :=
  asignacion_grafo_restriccion csp lvl (csp.X.length + 1) D [] 0

/-- Result of `minimos_conflictos`: a zero-conflict assignment, giving up
after the iteration budget, or a Python runtime error (`IndexError` from
`random.choice` on an empty sequence, `ValueError` from `min` on an empty
sequence, `NameError` from the uninitialized `repeticiones`). -/
inductive MCRes where
  | found (a : Asg)
  | gaveUp
  | err
deriving DecidableEq

/-- Model of `random.choice`: the oracle supplies an arbitrary index at
each tick; an empty sequence is the `IndexError` case. -/
def mcChoice (ora : Nat → Nat) (t : Nat) (l : List Nat) : Option Nat :=
  if h : l.length = 0 then none
  else some (l.get ⟨ora t % l.length, Nat.mod_lt _ (Nat.pos_of_ne_zero h)⟩)

/-- Model of `{x: choice(list(csp.D[x])) for x in csp.X}`: one oracle tick
per variable, failing if some domain is empty. -/
def mcInit (csp : ProblemaCSP) (D : DMap) (ora : Nat → Nat) :
    Nat → List Nat → Option (Asg × Nat)
  | t, [] => some ([], t)
  | t, x :: xs =>
    match mcChoice ora t (sortFin (D x)) with
    | none => none
    | some v => (mcInit csp D ora (t + 1) xs).map fun p => ((x, v) :: p.1, p.2)

/-- Conflict count of a variable under a full assignment: neighbors whose
current value violates the predicate with this variable's value. -/
def conflictosMC (csp : ProblemaCSP) (asg : Asg) (x : Nat) : Nat :=
  ((sortFin (csp.N x)).filter fun xj =>
    ¬ csp.restriccion_binaria x (lookupV asg x) xj (lookupV asg xj)).length

/-- Total conflicts over all variables (`sum(conflictos.values())`). -/
def totalConf (csp : ProblemaCSP) (asg : Asg) : Nat :=
  (csp.X.map fun x => conflictosMC csp asg x).sum

/-- Conflict count a candidate value `v` for `x` would have against the
current values of the neighbors (the `key` of the repair `min`). -/
def confCon (csp : ProblemaCSP) (asg : Asg) (x v : Nat) : Nat :=
  ((sortFin (csp.N x)).filter fun xj =>
    ¬ csp.restriccion_binaria x v xj (lookupV asg xj)).length

/-- First minimizer of `f` in list order (Python `min` keeps the first
minimal item); `none` on the empty list (Python raises `ValueError`). -/
def pickMinBy (f : Nat → Nat) : List Nat → Option Nat
  | [] => none
  | x :: xs => some (xs.foldl (fun b y => if f y < f b then y else b) x)

/-- In-place dictionary update `asign[x] = v` on the association list. -/
def setV (a : Asg) (x v : Nat) : Asg :=
  a.map fun p => if p.1 = x then (x, v) else p

/-- Repair step of `minimos_conflictos`: choose one conflicted variable at
random, reassign it to the first value minimizing its conflict count, and
continue through `cont` with the updated assignment and next tick. -/
def mcRepara (csp : ProblemaCSP) (D : DMap) (ora : Nat → Nat) (asg : Asg)
    (t used : Nat) (cont : Asg → Nat → MCRes × Nat) : MCRes × Nat :=
  match mcChoice ora t (csp.X.filter fun x => 0 < conflictosMC csp asg x) with
  | none => (.err, used + 1)
  | some x =>
    match pickMinBy (fun v => confCon csp asg x v) (sortFin (D x)) with
    | none => (.err, used + 1)
    | some v => cont (setV asg x v) (t + 1)

/-- Sentinel `1e10` of the source (`min_conflictos = 1e10`; the integer
total compares and tests equal to it exactly at `10^10`). -/
def mcCentinela : Nat := 10000000000

/-- Main loop of `minimos_conflictos`.  State: remaining iterations, the
assignment, oracle tick, best total so far (`min_conflictos`), the
stagnation counter (`repeticiones`; `none` while still unassigned, reading
it then is the `NameError` case), and the count of iterations begun. -/
def mcLoop (csp : ProblemaCSP) (D : DMap) (ora : Nat → Nat) (pac : Nat) :
    Nat → Asg → Nat → Nat → Option Nat → Nat → MCRes × Nat
  | 0, _asg, _t, _minc, _rep, used => (.gaveUp, used)
  | fuel + 1, asg, t, minc, rep, used =>
    let actual := totalConf csp asg
    if actual = 0 then (.found asg, used + 1)
    else if actual < minc then
      mcRepara csp D ora asg t used fun a2 t2 =>
        mcLoop csp D ora pac fuel a2 t2 actual (some 0) (used + 1)
    else if actual = minc then
      match rep with
      | none => (.err, used + 1)
      | some r =>
        if pac < r + 1 then
          match mcInit csp D ora t csp.X with
          | none => (.err, used + 1)
          | some p => mcLoop csp D ora pac fuel p.1 p.2 mcCentinela (some 0) (used + 1)
        else
          mcRepara csp D ora asg t used fun a2 t2 =>
            mcLoop csp D ora pac fuel a2 t2 minc (some (r + 1)) (used + 1)
    else
      mcRepara csp D ora asg t used fun a2 t2 =>
        mcLoop csp D ora pac fuel a2 t2 minc rep (used + 1)

/-- Entry point `minimos_conflictos(csp, max_iter, paciencia)`: random full
assignment, then the repair loop; also returns the number of iterations
begun. -/
def minimos_conflictos (csp : ProblemaCSP) (D : DMap) (ora : Nat → Nat)
    (max_iter pac : Nat) : MCRes × Nat :=
  match mcInit csp D ora 0 csp.X with
  | none => (.err, 0)
  | some p => mcLoop csp D ora pac max_iter p.1 p.2 mcCentinela none 0

/-- Domain-map component of an enforcer result. -/
def cresD : CRes → DMap
  | .fail D => D
  | .ok D _ => D

/-- Whether an enforcer result is a success. -/
def cresOk : CRes → Bool
  | .fail _ => false
  | .ok _ _ => true

/-- The n-queens binary constraint of nreinasCSP.py: different columns and
different diagonals. -/
def reinasR (xi vi xj vj : Nat) : Bool :=
  vi ≠ vj && (max vi vj - min vi vj ≠ max xi xj - min xi xj)

/-- The 2-queens instance (spec scenarios 2 and 5; unsatisfiable). -/
def reinas2 : ProblemaCSP where
  X := [1, 2]
  N := fun x => if 1 ≤ x ∧ x ≤ 2 then ({1, 2} : Finset Nat).erase x else ∅
  restriccion_binaria := reinasR

/-- Initial domains of the 2-queens instance. -/
def reinas2D : DMap := fun x => if 1 ≤ x ∧ x ≤ 2 then {1, 2} else ∅

/-- The 4-queens instance (spec scenario 1). -/
def reinas4 : ProblemaCSP where
  X := [1, 2, 3, 4]
  N := fun x => if 1 ≤ x ∧ x ≤ 4 then ({1, 2, 3, 4} : Finset Nat).erase x else ∅
  restriccion_binaria := reinasR

/-- Initial domains of the 4-queens instance. -/
def reinas4D : DMap := fun x => if 1 ≤ x ∧ x ≤ 4 then {1, 2, 3, 4} else ∅

/-- Compatibility table (the `True` entries, both orientations) of a
three-variable chain 1 — 2 — 3 on which the worklist direction of the AC-3
block matters: revising `(2,3)` removes value 0 of variable 2 after the
pair `(1,2)` has already been processed. -/
def c4Rlist : List (Nat × Nat × Nat × Nat) :=
  [(1,0,2,0),(1,1,2,0),(1,1,2,1),(2,1,3,0),
   (2,0,1,0),(2,0,1,1),(2,1,1,1),(3,0,2,1)]

/-- Symmetric compatibility predicate of the chain instance. -/
def c4R (a b c d : Nat) : Bool := decide ((a, b, c, d) ∈ c4Rlist)

/-- The chain instance: variable 0 isolated (the variable being assigned),
variables 1, 2, 3 in a path. -/
def c4csp : ProblemaCSP where
  X := [0, 1, 2, 3]
  N := fun x =>
    if x = 1 then {2} else if x = 2 then {1, 3} else if x = 3 then {2} else ∅
  restriccion_binaria := c4R

/-- Initial domains of the chain instance. -/
def c4D : DMap := fun x =>
  if x = 0 then {0} else if x = 1 then {0, 1} else if x = 2 then {0, 1}
  else if x = 3 then {0} else ∅

/-- A one-variable, no-constraint instance with a two-value domain. -/
def c5csp : ProblemaCSP where
  X := [0]
  N := fun _ => ∅
  restriccion_binaria := fun _ _ _ _ => true

/-- Initial domain of the one-variable instance. -/
def c5D : DMap := fun x => if x = 0 then {5, 7} else ∅

/-- Compatibility table (the `True` entries, both orientations) of the
four-variable complete-graph instance on which the backtrack counter at
consistency level 1 exceeds the one at level 0. -/
def c9Rlist : List (Nat × Nat × Nat × Nat) :=
  [(0,0,1,0),(0,0,1,1),(0,0,2,0),(0,0,2,1),(0,0,3,0),(0,0,3,2),
   (1,0,2,0),(1,0,3,0),(1,0,3,1),(1,1,2,1),(1,1,3,0),(1,1,3,2),(2,0,3,0),
   (1,0,0,0),(1,1,0,0),(2,0,0,0),(2,1,0,0),(3,0,0,0),(3,2,0,0),
   (2,0,1,0),(3,0,1,0),(3,1,1,0),(2,1,1,1),(3,0,1,1),(3,2,1,1),(3,0,2,0)]

/-- Symmetric compatibility predicate of the complete-graph instance. -/
def c9R (a b c d : Nat) : Bool := decide ((a, b, c, d) ∈ c9Rlist)

/-- The complete-graph instance of the backtrack-counter counterexample. -/
def c9csp : ProblemaCSP where
  X := [0, 1, 2, 3]
  N := fun x => if x ≤ 3 then ({0, 1, 2, 3} : Finset Nat).erase x else ∅
  restriccion_binaria := c9R

/-- Initial domains of the complete-graph instance (satisfiable). -/
def c9D : DMap := fun x =>
  if x = 0 then {0} else if x = 1 then {0, 1} else if x = 2 then {0, 1}
  else if x = 3 then {0, 1, 2} else ∅

/-- An instance whose variable 2 has an empty domain from the start
(variables 0 and 1 are constrained neighbors, 2 is isolated). -/
def c7csp : ProblemaCSP where
  X := [0, 1, 2]
  N := fun x => if x = 0 then {1} else if x = 1 then {0} else ∅
  restriccion_binaria := fun _ _ _ _ => true

/-- Domains of the empty-domain instance: variable 2 has no value. -/
def c7D : DMap := fun x => if x = 0 then {0, 1} else if x = 1 then {0} else ∅

/-- Modelled from the spec: the number of constraint violations a value `v`
for `x_i` would cause, counted against every value currently in the domain
of each unassigned neighbor of `x_i` (the quantity the value heuristic is
specified to sort by, ascending). -/
def violaciones (csp : ProblemaCSP) (D : DMap) (asg : Asg) (xi v : Nat) : Nat :=
  (((sortFin (csp.N xi)).filter fun xj => xj ∉ keys asg).map fun xj =>
    ((D xj).filter fun vj => ¬ csp.restriccion_binaria xi v xj vj).card).sum

/-- Largest possible total conflict count: every neighbor of every variable
in conflict at once. -/
def totalPosible (csp : ProblemaCSP) : Nat :=
  (csp.X.map fun x => (csp.N x).card).sum

/-- Decreasing measure of the AC-3 worklist loop: total domain size weighted
by a bound on the worklist length, plus the current worklist length. -/
def medida (csp : ProblemaCSP) (D : DMap) (pend : List (Nat × Nat)) : Nat :=
  sumDom csp D * (csp.X.length * csp.X.length + 1) + pend.length

/-- Stack consistency of a partial assignment: each binding was checked by
the level-0 node check against all older bindings when it was pushed. -/
def StackCons (csp : ProblemaCSP) (asg : Asg) : Prop :=
  asg.Pairwise fun p q =>
    q.1 ∈ csp.N p.1 → csp.restriccion_binaria p.1 p.2 q.1 q.2 = true

/-- A solution of the constraint graph within the initial domains: a total
value choice that draws every variable's value from its domain and
satisfies the predicate on every ordered pair of neighbors. -/
def Solucion (csp : ProblemaCSP) (D₀ : DMap) (s : Nat → Nat) : Prop :=
  (∀ x ∈ csp.X, s x ∈ D₀ x) ∧
  ∀ x ∈ csp.X, ∀ y ∈ csp.N x, csp.restriccion_binaria x (s x) y (s y) = true

theorem sortFinAux_mem (fuel : Nat) : ∀ (s : Finset Nat), s.card ≤ fuel →
    ∀ a : Nat, (a ∈ sortFinAux fuel s ↔ a ∈ s) := by
  induction fuel with
  | zero =>
    intro s hs a
    have hs0 : s = ∅ := Finset.card_eq_zero.mp (Nat.le_zero.mp hs)
    simp [sortFinAux, hs0]
  | succ n ih =>
    intro s hs a
    unfold sortFinAux
    cases hmin : s.min with
    | top =>
      have hs0 : s = ∅ := Finset.min_eq_top.mp hmin
      simp [hs0]
    | coe m =>
      have hm : m ∈ s := Finset.mem_of_min hmin
      have hcard : (s.erase m).card ≤ n := by
        rw [Finset.card_erase_of_mem hm]
        omega
      simp only [List.mem_cons, ih _ hcard, Finset.mem_erase]
      constructor
      · rintro (rfl | ⟨_, h⟩)
        · exact hm
        · exact h
      · intro ha
        by_cases h : a = m
        · exact Or.inl h
        · exact Or.inr ⟨h, ha⟩

theorem sortFin_mem (s : Finset Nat) (a : Nat) : a ∈ sortFin s ↔ a ∈ s :=
  sortFinAux_mem _ s le_rfl a

theorem sortFinAux_nodup (fuel : Nat) : ∀ (s : Finset Nat), s.card ≤ fuel →
    (sortFinAux fuel s).Nodup := by
  induction fuel with
  | zero => intro s _; simp [sortFinAux]
  | succ n ih =>
    intro s hs
    unfold sortFinAux
    cases hmin : s.min with
    | top => simp
    | coe m =>
      have hm : m ∈ s := Finset.mem_of_min hmin
      have hcard : (s.erase m).card ≤ n := by
        rw [Finset.card_erase_of_mem hm]
        omega
      refine List.nodup_cons.mpr ⟨?_, ih _ hcard⟩
      intro hmem
      have : m ∈ s.erase m := (sortFinAux_mem n _ hcard m).mp hmem
      exact (Finset.not_mem_erase m s) this

theorem sortFin_nodup (s : Finset Nat) : (sortFin s).Nodup :=
  sortFinAux_nodup _ s le_rfl

theorem sum_map_add_sum_map {f g h : Nat → Nat} :
    ∀ {l : List Nat}, (∀ x ∈ l, f x + g x = h x) →
      (l.map f).sum + (l.map g).sum = (l.map h).sum := by
  intro l
  induction l with
  | nil => simp
  | cons x xs ih =>
    intro hfg
    simp only [List.map_cons, List.sum_cons]
    have h1 := hfg x (List.mem_cons_self x xs)
    have h2 := ih fun y hy => hfg y (List.mem_cons_of_mem x hy)
    omega

theorem conflictos_add_violaciones (csp : ProblemaCSP) (D : DMap) (asg : Asg)
    (xi v : Nat) :
    conflictos csp D asg xi v + violaciones csp D asg xi v =
      (((sortFin (csp.N xi)).filter fun xj => xj ∉ keys asg).map fun xj =>
        (D xj).card).sum := by
  unfold conflictos violaciones
  exact sum_map_add_sum_map fun xj _ =>
    Finset.filter_card_add_filter_neg_card_eq_card
      (fun vj => csp.restriccion_binaria xi v xj vj = true)

theorem ordena_valores_perm (csp : ProblemaCSP) (D : DMap) (asg : Asg) (xi : Nat) :
    (ordena_valores csp D asg xi).Perm (sortFin (D xi)) :=
  List.perm_insertionSort _ _

theorem ordena_valores_mem (csp : ProblemaCSP) (D : DMap) (asg : Asg) (xi v : Nat) :
    v ∈ ordena_valores csp D asg xi ↔ v ∈ D xi := by
  rw [(ordena_valores_perm csp D asg xi).mem_iff]
  exact sortFin_mem _ v

theorem ordena_valores_sorted (csp : ProblemaCSP) (D : DMap) (asg : Asg) (xi : Nat) :
    (ordena_valores csp D asg xi).Sorted
      (fun a b => violaciones csp D asg xi a ≤ violaciones csp D asg xi b) := by
  have hts : ∀ w, conflictos csp D asg xi w + violaciones csp D asg xi w =
      (((sortFin (csp.N xi)).filter fun xj => xj ∉ keys asg).map fun xj =>
        (D xj).card).sum := fun w => conflictos_add_violaciones csp D asg xi w
  haveI htot : IsTotal Nat
      (fun a b => conflictos csp D asg xi b ≤ conflictos csp D asg xi a) :=
    ⟨fun a b => (Nat.le_total (conflictos csp D asg xi b) (conflictos csp D asg xi a))⟩
  haveI htrans : IsTrans Nat
      (fun a b => conflictos csp D asg xi b ≤ conflictos csp D asg xi a) :=
    ⟨fun _ _ _ h1 h2 => le_trans h2 h1⟩
  have hsorted := List.sorted_insertionSort
    (fun a b => conflictos csp D asg xi b ≤ conflictos csp D asg xi a)
    (sortFin (D xi))
  refine hsorted.imp ?_
  intro a b hab
  have ha := hts a
  have hb := hts b
  omega

theorem updD_same (D : DMap) (x : Nat) (s : Finset Nat) : updD D x s x = s := by
  simp [updD]

theorem updD_other (D : DMap) (x : Nat) (s : Finset Nat) {y : Nat} (h : y ≠ x) :
    updD D x s y = D y := by
  simp [updD, h]

theorem fcLoop_inv (csp : ProblemaCSP) (asg : Asg) (xi vi : Nat) :
    ∀ (l : List Nat) (D red D₀ : DMap), l.Nodup →
      (∀ y, D y ∪ red y = D₀ y) → (∀ y ∈ l, red y = ∅) →
      (∀ Dr, fcLoop csp asg xi vi l D red = .fail Dr → ∀ y, Dr y = D₀ y) ∧
      (∀ D' red', fcLoop csp asg xi vi l D red = .ok D' red' →
        (∀ y, D' y ∪ red' y = D₀ y) ∧ (∀ y, D' y ⊆ D y)) := by
  intro l
  induction l with
  | nil =>
    intro D red D₀ _ hinv _
    constructor
    · intro Dr h
      simp [fcLoop] at h
    · intro D' red' h
      simp only [fcLoop] at h
      cases h
      exact ⟨hinv, fun y => subset_rfl⟩
  | cons xj rest ih =>
    intro D red D₀ hnd hinv hzero
    have hzr : ∀ y ∈ rest, red y = ∅ := fun y hy => hzero y (List.mem_cons_of_mem _ hy)
    by_cases hk : xj ∈ keys asg
    · simp only [fcLoop, if_pos hk]
      exact ih D red D₀ hnd.of_cons hinv hzr
    · simp only [fcLoop, if_neg hk]
      by_cases hvs : (D xj).filter (fun vj => ¬ csp.restriccion_binaria xi vi xj vj) = ∅
      · rw [if_pos hvs, if_pos hvs]
        by_cases he : D xj = ∅
        · rw [if_pos he]
          constructor
          · intro Dr h
            cases h
            intro y
            exact hinv y
          · intro D' red' h
            cases h
        · rw [if_neg he]
          exact ih D red D₀ hnd.of_cons hinv hzr
      · rw [if_neg hvs, if_neg hvs, updD_same]
        have hsub : (D xj).filter (fun vj => ¬ csp.restriccion_binaria xi vi xj vj) ⊆ D xj :=
          Finset.filter_subset _ _
        have hinv2 : ∀ y,
            updD D xj (D xj \ (D xj).filter (fun vj => ¬ csp.restriccion_binaria xi vi xj vj)) y ∪
            updD red xj ((D xj).filter (fun vj => ¬ csp.restriccion_binaria xi vi xj vj)) y = D₀ y := by
          intro y
          by_cases hy : y = xj
          · subst hy
            rw [updD_same, updD_same]
            rw [Finset.sdiff_union_self_eq_union, Finset.union_eq_left.mpr hsub]
            have h0 := hinv y
            rw [hzero y (List.mem_cons_self _ _)] at h0
            simpa using h0
          · rw [updD_other _ _ _ hy, updD_other _ _ _ hy]
            exact hinv y
        by_cases he : D xj \ (D xj).filter (fun vj => ¬ csp.restriccion_binaria xi vi xj vj) = ∅
        · rw [if_pos he]
          constructor
          · intro Dr h
            cases h
            intro y
            exact hinv2 y
          · intro D' red' h
            cases h
        · rw [if_neg he]
          have hzr2 : ∀ y ∈ rest,
              updD red xj ((D xj).filter (fun vj => ¬ csp.restriccion_binaria xi vi xj vj)) y = ∅ := by
            intro y hy
            have hne : y ≠ xj := by
              intro hcon
              subst hcon
              exact (List.nodup_cons.mp hnd).1 hy
            rw [updD_other _ _ _ hne]
            exact hzr y hy
          have hrec := ih _ _ D₀ hnd.of_cons hinv2 hzr2
          refine ⟨hrec.1, ?_⟩
          intro D' red' h
          obtain ⟨h1, h2⟩ := hrec.2 D' red' h
          refine ⟨h1, fun y => le_trans (h2 y) ?_⟩
          by_cases hy : y = xj
          · subst hy
            rw [updD_same]
            exact Finset.sdiff_subset
          · rw [updD_other _ _ _ hy]

theorem ac3_inv (csp : ProblemaCSP) (asg : Asg) :
    ∀ (fuel : Nat) (pend : List (Nat × Nat)) (D red D₀ : DMap),
      (∀ y, D y ∪ red y = D₀ y) →
      (∀ Dr, ac3 csp asg fuel pend D red = .fail Dr → ∀ y, Dr y = D₀ y) ∧
      (∀ D' red', ac3 csp asg fuel pend D red = .ok D' red' →
        (∀ y, D' y ∪ red' y = D₀ y) ∧ (∀ y, D' y ⊆ D y)) := by
  intro fuel
  induction fuel with
  | zero =>
    intro pend D red D₀ hinv
    constructor
    · intro Dr h
      simp only [ac3] at h
      cases h
      intro y
      exact hinv y
    · intro D' red' h
      simp only [ac3] at h
      cases h
  | succ n ih =>
    intro pend D red D₀ hinv
    match pend with
    | [] =>
      constructor
      · intro Dr h
        simp only [ac3] at h
        cases h
      · intro D' red' h
        simp only [ac3] at h
        cases h
        exact ⟨hinv, fun y => subset_rfl⟩
    | (xa, xb) :: rest =>
      simp only [ac3]
      by_cases hvs : sinSoporte csp D xa xb = ∅
      · rw [if_pos hvs]
        exact ih rest D red D₀ hinv
      · rw [if_neg hvs, updD_same]
        have hsub : sinSoporte csp D xa xb ⊆ D xa := Finset.filter_subset _ _
        have hinv2 : ∀ y,
            updD D xa (D xa \ sinSoporte csp D xa xb) y ∪
            updD red xa (red xa ∪ sinSoporte csp D xa xb) y = D₀ y := by
          intro y
          by_cases hy : y = xa
          · subst hy
            rw [updD_same, updD_same,
              Finset.union_comm (red y) (sinSoporte csp D y xb), ← Finset.union_assoc,
              Finset.sdiff_union_self_eq_union, Finset.union_eq_left.mpr hsub]
            exact hinv y
          · rw [updD_other _ _ _ hy, updD_other _ _ _ hy]
            exact hinv y
        by_cases he : D xa \ sinSoporte csp D xa xb = ∅
        · rw [if_pos he]
          constructor
          · intro Dr h
            cases h
            intro y
            exact hinv2 y
          · intro D' red' h
            cases h
        · rw [if_neg he]
          have hrec := ih (pushPend rest (reenqueue csp asg xa)) _ _ D₀ hinv2
          refine ⟨hrec.1, ?_⟩
          intro D' red' h
          obtain ⟨h1, h2⟩ := hrec.2 D' red' h
          refine ⟨h1, fun y => le_trans (h2 y) ?_⟩
          by_cases hy : y = xa
          · subst hy
            rw [updD_same]
            exact Finset.sdiff_subset
          · rw [updD_other _ _ _ hy]

theorem consistencia_inv (csp : ProblemaCSP) (D : DMap) (asg : Asg) (xi vi lvl : Nat)
    (hv : vi ∈ D xi) (hirr : xi ∉ csp.N xi) :
    (∀ Dr, consistencia csp D asg xi vi lvl = .fail Dr → ∀ y, Dr y = D y) ∧
    (∀ D' red', consistencia csp D asg xi vi lvl = .ok D' red' →
      (∀ y, D' y ∪ red' y = D y) ∧ (∀ y, D' y ⊆ D y)) := by
  by_cases hchk : checkAsg csp asg xi vi = true
  · simp only [consistencia]
    rw [if_neg (not_not_intro hchk)]
    have hD0sub : ∀ y, updD D xi {vi} y ⊆ D y := by
      intro y
      by_cases hy : y = xi
      · subst hy
        rw [updD_same]
        exact Finset.singleton_subset_iff.mpr hv
      · rw [updD_other _ _ _ hy]
    have hinv0 : ∀ y, updD D xi {vi} y ∪ updD (fun _ => ∅) xi ((D xi).erase vi) y = D y := by
      intro y
      by_cases hy : y = xi
      · subst hy
        rw [updD_same, updD_same, ← Finset.insert_eq, Finset.insert_erase hv]
      · rw [updD_other _ _ _ hy, updD_other _ _ _ hy, Finset.union_empty]
    by_cases hlvl : 1 ≤ lvl
    · rw [if_pos hlvl]
      have hzero : ∀ y ∈ sortFin (csp.N xi),
          updD (fun _ => ∅) xi ((D xi).erase vi) y = ∅ := by
        intro y hy
        have hyN : y ∈ csp.N xi := (sortFin_mem _ y).mp hy
        have hne : y ≠ xi := fun hcon => hirr (hcon ▸ hyN)
        rw [updD_other _ _ _ hne]
      have hfc := fcLoop_inv csp asg xi vi (sortFin (csp.N xi))
        (updD D xi {vi}) (updD (fun _ => ∅) xi ((D xi).erase vi)) D
        (sortFin_nodup _) hinv0 hzero
      cases hres : fcLoop csp asg xi vi (sortFin (csp.N xi))
          (updD D xi {vi}) (updD (fun _ => ∅) xi ((D xi).erase vi)) with
      | fail Dr0 =>
        constructor
        · intro Dr h
          cases h
          exact hfc.1 Dr0 hres
        · intro D' red' h
          cases h
      | ok D1 red1 =>
        dsimp only
        obtain ⟨hinv1, hsub1⟩ := hfc.2 D1 red1 hres
        by_cases h2 : lvl = 2
        · rw [if_pos h2]
          have hac := ac3_inv csp asg (ac3Fuel csp D1) (initPend csp asg) D1 red1 D hinv1
          refine ⟨hac.1, ?_⟩
          intro D' red' h
          obtain ⟨ha, hb⟩ := hac.2 D' red' h
          exact ⟨ha, fun y => le_trans (hb y) (le_trans (hsub1 y) (hD0sub y))⟩
        · rw [if_neg h2]
          constructor
          · intro Dr h
            cases h
          · intro D' red' h
            cases h
            exact ⟨hinv1, fun y => le_trans (hsub1 y) (hD0sub y)⟩
    · rw [if_neg hlvl]
      have h2 : ¬ (lvl = 2) := by omega
      dsimp only
      rw [if_neg h2]
      constructor
      · intro Dr h
        cases h
      · intro D' red' h
        cases h
        exact ⟨hinv0, hD0sub⟩
  · simp only [consistencia]
    rw [if_pos (by simpa using hchk)]
    constructor
    · intro Dr h
      cases h
      intro y
      rfl
    · intro D' red' h
      cases h

theorem tryVals_restore (csp : ProblemaCSP) (lvl var : Nat)
    (recur : DMap → Asg → Nat → Option Asg × DMap × Nat)
    (hrec : ∀ D asg bt y, (recur D asg bt).2.1 y = D y)
    (hirr : var ∉ csp.N var) :
    ∀ (vals : List Nat) (D : DMap) (asg : Asg) (bt : Nat),
      (∀ v ∈ vals, v ∈ D var) →
      ∀ y, (tryVals csp lvl var recur vals D asg bt).2.1 y = D y := by
  intro vals
  induction vals with
  | nil =>
    intro D asg bt _ y
    rfl
  | cons v rest ih =>
    intro D asg bt hmem y
    have hv : v ∈ D var := hmem v (List.mem_cons_self _ _)
    have hci := consistencia_inv csp D asg var v lvl hv hirr
    simp only [tryVals]
    cases hc : consistencia csp D asg var v lvl with
    | fail Dr =>
      have hDr : ∀ z, Dr z = D z := hci.1 Dr hc
      have hmem2 : ∀ w ∈ rest, w ∈ Dr var := by
        intro w hw
        rw [hDr var]
        exact hmem w (List.mem_cons_of_mem _ hw)
      rw [ih Dr asg (bt + 1) hmem2 y, hDr y]
    | ok D1 red =>
      dsimp only
      obtain ⟨hinv, _hsub⟩ := hci.2 D1 red hc
      rcases hr : recur D1 ((var, v) :: asg) bt with ⟨res, D2, bt2⟩
      have hD2 : ∀ z, D2 z = D1 z := by
        intro z
        have := hrec D1 ((var, v) :: asg) bt z
        rw [hr] at this
        exact this
      have hrest : ∀ z, restoreD D2 red z = D z := by
        intro z
        show D2 z ∪ red z = D z
        rw [hD2 z]
        exact hinv z
      cases res with
      | some a =>
        dsimp only
        exact hrest y
      | none =>
        dsimp only
        have hmem2 : ∀ w ∈ rest, w ∈ restoreD D2 red var := by
          intro w hw
          rw [hrest var]
          exact hmem w (List.mem_cons_of_mem _ hw)
        rw [ih (restoreD D2 red) asg bt2 hmem2 y, hrest y]

theorem agr_restore (csp : ProblemaCSP) (lvl : Nat) (hirrAll : ∀ x, x ∉ csp.N x) :
    ∀ (fuel : Nat) (D : DMap) (asg : Asg) (bt : Nat) (y : Nat),
      (asignacion_grafo_restriccion csp lvl fuel D asg bt).2.1 y = D y := by
  intro fuel
  induction fuel with
  | zero =>
    intro D asg bt y
    rfl
  | succ n ih =>
    intro D asg bt y
    simp only [asignacion_grafo_restriccion]
    by_cases hcomp : completaChk csp asg = true
    · rw [if_pos hcomp]
    · rw [if_neg hcomp]
      cases hsel : selecciona_variable csp D asg with
      | none => rfl
      | some var =>
        dsimp only
        exact tryVals_restore csp lvl var _ (fun D' a' b' z => ih D' a' b' z)
          (hirrAll var) (ordena_valores csp D asg var) D asg bt
          (fun v hv => (ordena_valores_mem csp D asg var v).mp hv) y

theorem asignacion_completa_restore (csp : ProblemaCSP) (D : DMap) (lvl : Nat)
    (hirrAll : ∀ x, x ∉ csp.N x) :
    ∀ y, (asignacion_completa csp D lvl).2.1 y = D y :=
  fun y => agr_restore csp lvl hirrAll (csp.X.length + 1) D [] 0 y

theorem reinas2_irrefl : ∀ x, x ∉ reinas2.N x := by
  intro x
  simp only [reinas2]
  split_ifs
  · simp
  · simp

theorem c5csp_irrefl : ∀ x, x ∉ c5csp.N x := by
  intro x
  simp [c5csp]

/-- C3: failure atomicity of the consistency enforcer.  For every
constraint-graph state, partial assignment, variable `x_i` (not its own
neighbor) and candidate value `v_i` drawn from its domain, at any level,
whenever `consistencia` returns failure the domain map it leaves behind is
pointwise exactly the one from before the call: every reduction (the
singleton collapse, forward-checking prunings and arc revisions) has been
undone. -/
theorem claim_C3 (csp : ProblemaCSP) (D : DMap) (asg : Asg) (xi vi lvl : Nat)
    (hv : vi ∈ D xi) (hirr : xi ∉ csp.N xi) (Dr : DMap)
    (hfail : consistencia csp D asg xi vi lvl = CRes.fail Dr) :
    ∀ y, Dr y = D y :=
  (consistencia_inv csp D asg xi vi lvl hv hirr).1 Dr hfail

/-- Witness for C3: at the unsatisfiable 2-queens instance, assigning
queen 1 to column 1 at level 1 wipes out queen 2's domain; the enforcer
fails and the domain map is exactly the initial one. -/
theorem claim_C3_witness :
    (1 : Nat) ∈ reinas2D 1 ∧ (1 : Nat) ∉ reinas2.N 1 ∧
    ∀ y, cresD (consistencia reinas2 reinas2D [] 1 1 1) y = reinas2D y :=
  ⟨by decide, by decide,
    claim_C3 reinas2 reinas2D [] 1 1 1 (by decide) (by decide)
      (cresD (consistencia reinas2 reinas2D [] 1 1 1)) rfl⟩

/-- C4: the claim is right and the code is wrong.  After the revision of
`x_a = 2` against `x_b = 3` removes value 0 from `D 2`, the source
re-enqueues the pairs `(2, z)` instead of `(z, 2)`, so neighbor 1 is never
re-revised against the reduced domain of 2: the enforcer returns success
while value 0 of variable 1 has no support left in `D 2`. -/
theorem claim_C4 :
    cresOk (consistencia c4csp c4D [] 0 0 2) = true ∧
    (0 : Nat) ∈ cresD (consistencia c4csp c4D [] 0 0 2) 1 ∧
    (2 : Nat) ∈ c4csp.N 1 ∧ (1 : Nat) ∉ keys ([] : Asg) ∧
    soporte c4csp (cresD (consistencia c4csp c4D [] 0 0 2)) 1 0 2 = ∅ := by
  refine ⟨by decide, by decide, by decide, by decide, by decide⟩

/-- Counterexample to C5 as stated: on a one-variable instance with domain
`{5, 7}` the engine returns the solution assigning 5, yet the variable's
domain after the call is the restored `{5, 7}`, not the singleton `{5}`
the claim requires for solution variables. -/
theorem claim_C5_cex :
    (asignacion_completa c5csp c5D 1).1 = some [(0, 5)] ∧
    (asignacion_completa c5csp c5D 1).2.1 0 = {5, 7} ∧
    ¬ (asignacion_completa c5csp c5D 1).2.1 0 = {5} := by
  refine ⟨by decide, by decide, by decide⟩

/-- C5 as amended: after a complete `asignacion_completa` call returns a
solution, every domain off the solution path is restored bit-for-bit, and
the domains of the solution variables are likewise restored bit-for-bit to
their pre-call state (the engine restores even on success, so no variable
is left holding a collapsed singleton). -/
theorem claim_C5 (csp : ProblemaCSP) (D : DMap) (lvl : Nat)
    (hirrAll : ∀ x, x ∉ csp.N x) (a : Asg)
    (_hsome : (asignacion_completa csp D lvl).1 = some a) :
    (∀ y, y ∉ keys a → (asignacion_completa csp D lvl).2.1 y = D y) ∧
    (∀ p ∈ a, (asignacion_completa csp D lvl).2.1 p.1 = D p.1) :=
  ⟨fun y _ => asignacion_completa_restore csp D lvl hirrAll y,
   fun p _ => asignacion_completa_restore csp D lvl hirrAll p.1⟩

/-- Witness for C5 (amended): the one-variable instance returns the
solution `[(0, 5)]` and both restoration conjuncts hold. -/
theorem claim_C5_witness :
    (∀ x, x ∉ c5csp.N x) ∧
    ((∀ y, y ∉ keys [((0 : Nat), (5 : Nat))] →
        (asignacion_completa c5csp c5D 1).2.1 y = c5D y) ∧
     (∀ p ∈ [((0 : Nat), (5 : Nat))],
        (asignacion_completa c5csp c5D 1).2.1 p.1 = c5D p.1)) :=
  ⟨c5csp_irrefl, claim_C5 c5csp c5D 1 c5csp_irrefl [(0, 5)] (by decide)⟩

/-- C6: the value-ordering heuristic returns exactly the values of the
current domain of `x_i` (a permutation of its ascending enumeration),
sorted in ascending order of the number of constraint violations the value
would cause against every value currently in the domain of each unassigned
neighbor; ties are resolved by the fixed deterministic enumeration order of
the domain used by the embedding. -/
theorem claim_C6 (csp : ProblemaCSP) (D : DMap) (asg : Asg) (xi : Nat) :
    (ordena_valores csp D asg xi).Perm (sortFin (D xi)) ∧
    (∀ v, v ∈ ordena_valores csp D asg xi ↔ v ∈ D xi) ∧
    (ordena_valores csp D asg xi).Sorted
      (fun a b => violaciones csp D asg xi a ≤ violaciones csp D asg xi b) :=
  ⟨ordena_valores_perm csp D asg xi,
   fun v => ordena_valores_mem csp D asg xi v,
   ordena_valores_sorted csp D asg xi⟩

/-- C10: after any `asignacion_completa` call returns — solution or `None` —
the domain of every variable, including the variables of a returned
solution, is pointwise exactly its pre-call state: each recursion level
restores its reversal record before propagating even a successful result. -/
theorem claim_C10 (csp : ProblemaCSP) (D : DMap) (lvl : Nat)
    (hirrAll : ∀ x, x ∉ csp.N x) :
    ∀ y, (asignacion_completa csp D lvl).2.1 y = D y :=
  asignacion_completa_restore csp D lvl hirrAll

/-- Witness for C10: the unsatisfiable 2-queens search at level 1 returns
with every domain restored. -/
theorem claim_C10_witness :
    (∀ x, x ∉ reinas2.N x) ∧
    ∀ y, (asignacion_completa reinas2 reinas2D 1).2.1 y = reinas2D y :=
  ⟨reinas2_irrefl, claim_C10 reinas2 reinas2D 1 reinas2_irrefl⟩

theorem mcInit_empty_dom (csp : ProblemaCSP) (D : DMap) (ora : Nat → Nat)
    (x : Nat) (hx : D x = ∅) :
    ∀ (xs : List Nat) (t : Nat), x ∈ xs → mcInit csp D ora t xs = none := by
  intro xs
  induction xs with
  | nil =>
    intro t hmem
    cases hmem
  | cons y ys ih =>
    intro t hmem
    unfold mcInit
    rcases List.mem_cons.mp hmem with rfl | hmem2
    · have : sortFin (D x) = [] := by
        rw [hx]
        rfl
      rw [this]
      rfl
    · cases hch : mcChoice ora t (sortFin (D y)) with
      | none => rfl
      | some v =>
        dsimp only
        rw [ih (t + 1) hmem2]
        rfl

/-- Counterexample to C9: on the four-variable complete-graph instance the
backtrack counter after the level-1 search is 2 while after the level-0
search it is 0, refuting `backtrackCount(1) ≤ backtrackCount(0)`. -/
theorem claim_C9_cex :
    (asignacion_completa c9csp c9D 1).2.2 = 2 ∧
    (asignacion_completa c9csp c9D 0).2.2 = 0 ∧
    ¬ ((asignacion_completa c9csp c9D 1).2.2 ≤
        (asignacion_completa c9csp c9D 0).2.2) := by
  refine ⟨by decide, by decide, by decide⟩

/-- C9 as amended: the monotone chain
`backtrackCount(2) ≤ backtrackCount(1) ≤ backtrackCount(0)` is not valid
for every instance; it does hold on the spec's own queens scenarios, here
the unsatisfiable 2-queens and the satisfiable 4-queens instances. -/
theorem claim_C9 :
    ((asignacion_completa reinas2 reinas2D 2).2.2 ≤
        (asignacion_completa reinas2 reinas2D 1).2.2 ∧
      (asignacion_completa reinas2 reinas2D 1).2.2 ≤
        (asignacion_completa reinas2 reinas2D 0).2.2) ∧
    ((asignacion_completa reinas4 reinas4D 2).2.2 ≤
        (asignacion_completa reinas4 reinas4D 1).2.2 ∧
      (asignacion_completa reinas4 reinas4D 1).2.2 ≤
        (asignacion_completa reinas4 reinas4D 0).2.2) := by
  refine ⟨⟨by decide, by decide⟩, ⟨by decide, by decide⟩⟩

/-- C7: the claim is right for the backtracking entry point and wrong on
the code for min-conflicts.  On an instance whose variable 2 starts with an
empty domain, `asignacion_completa` terminates normally with `None` at all
three levels, but `minimos_conflictos` hits `random.choice` on an empty
sequence during its initial assignment — an `IndexError`, not `None` — for
every random oracle and every iteration budget. -/
theorem claim_C7 :
    ((asignacion_completa c7csp c7D 0).1 = none ∧
     (asignacion_completa c7csp c7D 1).1 = none ∧
     (asignacion_completa c7csp c7D 2).1 = none) ∧
    ∀ (ora : Nat → Nat) (mi pac : Nat),
      minimos_conflictos c7csp c7D ora mi pac = (.err, 0) := by
  refine ⟨⟨by decide, by decide, by decide⟩, ?_⟩
  intro ora mi pac
  unfold minimos_conflictos
  rw [mcInit_empty_dom c7csp c7D ora 2 (by decide) c7csp.X 0 (by decide)]

theorem natSum_zero_of_mem {l : List Nat} (h : l.sum = 0) : ∀ x ∈ l, x = 0 := by
  induction l with
  | nil => intro x hx; cases hx
  | cons y ys ih =>
    intro x hx
    rw [List.sum_cons] at h
    rcases List.mem_cons.mp hx with rfl | hx2
    · omega
    · exact ih (by omega) x hx2

theorem natSum_ne_zero {l : List Nat} (h : l.sum ≠ 0) : ∃ x ∈ l, x ≠ 0 := by
  induction l with
  | nil => simp at h
  | cons y ys ih =>
    rw [List.sum_cons] at h
    by_cases hy : y = 0
    · subst hy
      simp only [Nat.zero_add] at h
      obtain ⟨x, hx, hxn⟩ := ih h
      exact ⟨x, List.mem_cons_of_mem _ hx, hxn⟩
    · exact ⟨y, List.mem_cons_self _ _, hy⟩

theorem natSum_le_map {l : List Nat} {f g : Nat → Nat} (h : ∀ x ∈ l, f x ≤ g x) :
    (l.map f).sum ≤ (l.map g).sum := by
  induction l with
  | nil => simp
  | cons y ys ih =>
    simp only [List.map_cons, List.sum_cons]
    have h1 := h y (List.mem_cons_self _ _)
    have h2 := ih fun x hx => h x (List.mem_cons_of_mem _ hx)
    omega

theorem sortFinAux_length (fuel : Nat) : ∀ (s : Finset Nat), s.card ≤ fuel →
    (sortFinAux fuel s).length = s.card := by
  induction fuel with
  | zero =>
    intro s hs
    have hs0 : s = ∅ := Finset.card_eq_zero.mp (Nat.le_zero.mp hs)
    simp [sortFinAux, hs0]
  | succ n ih =>
    intro s hs
    unfold sortFinAux
    cases hmin : s.min with
    | top =>
      have hs0 : s = ∅ := Finset.min_eq_top.mp hmin
      simp [hs0]
    | coe m =>
      have hm : m ∈ s := Finset.mem_of_min hmin
      have hpos : 0 < s.card := Finset.card_pos.mpr ⟨m, hm⟩
      have hcard : (s.erase m).card ≤ n := by
        rw [Finset.card_erase_of_mem hm]
        omega
      simp only [List.length_cons, ih _ hcard, Finset.card_erase_of_mem hm]
      omega

theorem sortFin_length (s : Finset Nat) : (sortFin s).length = s.card :=
  sortFinAux_length _ s le_rfl

theorem mcChoice_eq_some (ora : Nat → Nat) (t : Nat) (l : List Nat)
    (h : l.length ≠ 0) : ∃ v, mcChoice ora t l = some v ∧ v ∈ l := by
  unfold mcChoice
  rw [dif_neg h]
  exact ⟨_, rfl, List.get_mem _ _ _⟩

theorem foldlMin_mem (f : Nat → Nat) : ∀ (xs : List Nat) (b : Nat),
    xs.foldl (fun b y => if f y < f b then y else b) b ∈ b :: xs := by
  intro xs
  induction xs with
  | nil => intro b; exact List.mem_cons_self _ _
  | cons y ys ih =>
    intro b
    simp only [List.foldl_cons]
    by_cases h : f y < f b
    · rw [if_pos h]
      exact List.mem_cons_of_mem _ (ih y)
    · rw [if_neg h]
      rcases List.mem_cons.mp (ih b) with heq | hmem
      · rw [heq]
        exact List.mem_cons_self _ _
      · exact List.mem_cons_of_mem _ (List.mem_cons_of_mem _ hmem)

theorem pickMinBy_mem (f : Nat → Nat) (l : List Nat) (v : Nat)
    (h : pickMinBy f l = some v) : v ∈ l := by
  cases l with
  | nil => cases h
  | cons x xs =>
    unfold pickMinBy at h
    cases h
    exact foldlMin_mem f xs x

theorem setV_vals (a : Asg) (x v : Nat) (D : DMap) (hv : v ∈ D x)
    (hvals : ∀ p ∈ a, p.2 ∈ D p.1) : ∀ p ∈ setV a x v, p.2 ∈ D p.1 := by
  intro p hp
  unfold setV at hp
  obtain ⟨q, hq, hqe⟩ := List.mem_map.mp hp
  by_cases h : q.1 = x
  · rw [if_pos h] at hqe
    rw [← hqe]
    exact hv
  · rw [if_neg h] at hqe
    rw [← hqe]
    exact hvals q hq

theorem mcInit_post (csp : ProblemaCSP) (D : DMap) (ora : Nat → Nat) :
    ∀ (xs : List Nat) (t : Nat), (∀ x ∈ xs, D x ≠ ∅) →
      ∃ a t2, mcInit csp D ora t xs = some (a, t2) ∧ ∀ p ∈ a, p.2 ∈ D p.1 := by
  intro xs
  induction xs with
  | nil =>
    intro t _
    exact ⟨[], t, rfl, fun p hp => absurd hp (List.not_mem_nil p)⟩
  | cons x xs ih =>
    intro t hne
    have hlen : (sortFin (D x)).length ≠ 0 := by
      rw [sortFin_length]
      intro h0
      exact hne x (List.mem_cons_self _ _) (Finset.card_eq_zero.mp h0)
    obtain ⟨v, hch, hvmem⟩ := mcChoice_eq_some ora t (sortFin (D x)) hlen
    obtain ⟨a, t2, hinit, hvals⟩ := ih (t + 1) fun y hy => hne y (List.mem_cons_of_mem _ hy)
    refine ⟨(x, v) :: a, t2, ?_, ?_⟩
    · unfold mcInit
      rw [hch]
      dsimp only
      rw [hinit]
      rfl
    · intro p hp
      rcases List.mem_cons.mp hp with rfl | hp2
      · exact (sortFin_mem _ v).mp hvmem
      · exact hvals p hp2

theorem totalConf_le (csp : ProblemaCSP) (asg : Asg) :
    totalConf csp asg ≤ totalPosible csp := by
  unfold totalConf totalPosible
  refine natSum_le_map ?_
  intro x _
  unfold conflictosMC
  calc ((sortFin (csp.N x)).filter _).length
      ≤ (sortFin (csp.N x)).length := List.length_filter_le _ _
    _ = (csp.N x).card := sortFin_length _

theorem exists_conflicted (csp : ProblemaCSP) (asg : Asg)
    (h : totalConf csp asg ≠ 0) :
    (csp.X.filter fun x => 0 < conflictosMC csp asg x).length ≠ 0 := by
  unfold totalConf at h
  obtain ⟨c, hc, hcn⟩ := natSum_ne_zero h
  obtain ⟨x, hx, hxe⟩ := List.mem_map.mp hc
  intro hlen
  have hnil := List.length_eq_zero.mp hlen
  have hxf : x ∈ csp.X.filter fun x => 0 < conflictosMC csp asg x :=
    List.mem_filter.mpr ⟨hx, by
      have : conflictosMC csp asg x ≠ 0 := by
        rw [hxe]
        exact hcn
      simpa using Nat.pos_of_ne_zero this⟩
  rw [hnil] at hxf
  cases hxf

theorem mcRepara_post (csp : ProblemaCSP) (D : DMap) (ora : Nat → Nat)
    (asg : Asg) (t used : Nat) (cont : Asg → Nat → MCRes × Nat)
    (P : MCRes × Nat → Prop)
    (hact : totalConf csp asg ≠ 0)
    (hne : ∀ x ∈ csp.X, D x ≠ ∅)
    (hvals : ∀ p ∈ asg, p.2 ∈ D p.1)
    (hcont : ∀ a2 t2, (∀ p ∈ a2, p.2 ∈ D p.1) → P (cont a2 t2)) :
    P (mcRepara csp D ora asg t used cont) := by
  obtain ⟨x, hch, hxmem⟩ := mcChoice_eq_some ora t _ (exists_conflicted csp asg hact)
  have hxX : x ∈ csp.X := (List.mem_filter.mp hxmem).1
  have hlen : (sortFin (D x)).length ≠ 0 := by
    rw [sortFin_length]
    intro h0
    exact hne x hxX (Finset.card_eq_zero.mp h0)
  unfold mcRepara
  rw [hch]
  dsimp only
  cases hpk : pickMinBy (fun v => confCon csp asg x v) (sortFin (D x)) with
  | none =>
    exfalso
    cases hl : sortFin (D x) with
    | nil =>
      rw [hl] at hlen
      exact hlen rfl
    | cons w ws =>
      rw [hl] at hpk
      simp [pickMinBy] at hpk
  | some v =>
    dsimp only
    have hvD : v ∈ D x :=
      (sortFin_mem _ v).mp (pickMinBy_mem _ _ v hpk)
    exact hcont _ _ (setV_vals asg x v D hvD hvals)

theorem mcLoop_post (csp : ProblemaCSP) (D : DMap) (ora : Nat → Nat) (pac : Nat)
    (hta : totalPosible csp < mcCentinela)
    (hne : ∀ x ∈ csp.X, D x ≠ ∅) :
    ∀ (fuel : Nat) (asg : Asg) (t minc : Nat) (rep : Option Nat) (used : Nat),
      (∀ p ∈ asg, p.2 ∈ D p.1) →
      (rep = none → minc = mcCentinela) →
      ((mcLoop csp D ora pac fuel asg t minc rep used).2 ≤ used + fuel) ∧
      ((mcLoop csp D ora pac fuel asg t minc rep used).1 ≠ .err) ∧
      (∀ a, (mcLoop csp D ora pac fuel asg t minc rep used).1 = .found a →
        totalConf csp a = 0 ∧ ∀ p ∈ a, p.2 ∈ D p.1) := by
  intro fuel
  induction fuel with
  | zero =>
    intro asg t minc rep used hvals _
    refine ⟨le_refl _, ?_, ?_⟩
    · intro h
      cases h
    · intro a h
      cases h
  | succ n ih =>
    intro asg t minc rep used hvals hrep
    have hbound : totalConf csp asg < mcCentinela :=
      lt_of_le_of_lt (totalConf_le csp asg) hta
    simp only [mcLoop]
    by_cases h0 : totalConf csp asg = 0
    · rw [if_pos h0]
      refine ⟨by omega, ?_, ?_⟩
      · intro h
        cases h
      · intro a h
        cases h
        exact ⟨h0, hvals⟩
    · rw [if_neg h0]
      by_cases h1 : totalConf csp asg < minc
      · rw [if_pos h1]
        refine mcRepara_post csp D ora asg t used _
          (fun r => r.2 ≤ used + (n + 1) ∧ r.1 ≠ MCRes.err ∧
            ∀ a, r.1 = MCRes.found a → totalConf csp a = 0 ∧ ∀ p ∈ a, p.2 ∈ D p.1) h0 hne hvals ?_
        intro a2 t2 hv2
        have hr := ih a2 t2 (totalConf csp asg) (some 0) (used + 1) hv2 (by intro h; cases h)
        exact ⟨by omega, hr.2.1, hr.2.2⟩
      · rw [if_neg h1]
        by_cases h2 : totalConf csp asg = minc
        · rw [if_pos h2]
          cases rep with
          | none =>
            exfalso
            rw [hrep rfl] at h2
            omega
          | some r =>
            dsimp only
            by_cases h3 : pac < r + 1
            · rw [if_pos h3]
              obtain ⟨a3, t3, hinit, hv3⟩ := mcInit_post csp D ora csp.X t hne
              rw [hinit]
              dsimp only
              have hr := ih a3 t3 mcCentinela (some 0) (used + 1) hv3 (by intro h; cases h)
              exact ⟨by omega, hr.2.1, hr.2.2⟩
            · rw [if_neg h3]
              refine mcRepara_post csp D ora asg t used _
                (fun r => r.2 ≤ used + (n + 1) ∧ r.1 ≠ MCRes.err ∧
            ∀ a, r.1 = MCRes.found a → totalConf csp a = 0 ∧ ∀ p ∈ a, p.2 ∈ D p.1) h0 hne hvals ?_
              intro a2 t2 hv2
              have hr := ih a2 t2 minc (some (r + 1)) (used + 1) hv2 (by intro h; cases h)
              exact ⟨by omega, hr.2.1, hr.2.2⟩
        · rw [if_neg h2]
          refine mcRepara_post csp D ora asg t used _
            (fun r => r.2 ≤ used + (n + 1) ∧ r.1 ≠ MCRes.err ∧
            ∀ a, r.1 = MCRes.found a → totalConf csp a = 0 ∧ ∀ p ∈ a, p.2 ∈ D p.1) h0 hne hvals ?_
          intro a2 t2 hv2
          have hr := ih a2 t2 minc rep (used + 1) hv2 hrep
          exact ⟨by omega, hr.2.1, hr.2.2⟩

theorem totalConf_zero_pairs (csp : ProblemaCSP) (asg : Asg)
    (h : totalConf csp asg = 0) :
    ∀ x ∈ csp.X, ∀ y ∈ csp.N x,
      csp.restriccion_binaria x (lookupV asg x) y (lookupV asg y) = true := by
  intro x hx y hy
  have hcx : conflictosMC csp asg x = 0 :=
    natSum_zero_of_mem h _ (List.mem_map.mpr ⟨x, hx, rfl⟩)
  unfold conflictosMC at hcx
  have hnil := List.length_eq_zero.mp hcx
  by_contra hcon
  have hmem : y ∈ (sortFin (csp.N x)).filter fun xj =>
      ¬ csp.restriccion_binaria x (lookupV asg x) xj (lookupV asg xj) :=
    List.mem_filter.mpr ⟨(sortFin_mem _ y).mpr hy, by simpa using hcon⟩
  rw [hnil] at hmem
  cases hmem

/-- C8: bounded termination of min-conflicts.  For every instance whose
domains are all nonempty (so the initial random assignment cannot crash)
and whose conflict count cannot reach the `1e10` sentinel, for every oracle
and every `max_iter`, the loop begins at most `max_iter` iterations, never
errors; a `found` result carries zero total conflicts, and on an instance
with no zero-conflict assignment within the domains the result is the
give-up value (the `None` of the source). -/
theorem claim_C8 (csp : ProblemaCSP) (D : DMap) (ora : Nat → Nat) (mi pac : Nat)
    (hta : totalPosible csp < mcCentinela) (hne : ∀ x ∈ csp.X, D x ≠ ∅) :
    ((minimos_conflictos csp D ora mi pac).2 ≤ mi) ∧
    ((minimos_conflictos csp D ora mi pac).1 ≠ .err) ∧
    (∀ a, (minimos_conflictos csp D ora mi pac).1 = .found a →
      totalConf csp a = 0 ∧ ∀ p ∈ a, p.2 ∈ D p.1) ∧
    ((∀ a : Asg, (∀ p ∈ a, p.2 ∈ D p.1) → totalConf csp a ≠ 0) →
      (minimos_conflictos csp D ora mi pac).1 = .gaveUp) := by
  obtain ⟨a0, t0, hinit, hv0⟩ := mcInit_post csp D ora csp.X 0 hne
  unfold minimos_conflictos
  rw [hinit]
  dsimp only
  have hr := mcLoop_post csp D ora pac hta hne mi a0 t0 mcCentinela none 0 hv0
    (fun _ => rfl)
  refine ⟨by simpa using hr.1, hr.2.1, hr.2.2, ?_⟩
  intro hunsat
  cases hres : (mcLoop csp D ora pac mi a0 t0 mcCentinela none 0).1 with
  | found a =>
    exfalso
    obtain ⟨hz, hv⟩ := hr.2.2 a hres
    exact hunsat a hv hz
  | gaveUp => rfl
  | err => exact absurd hres hr.2.1

/-- Witness for C8: the unsatisfiable 2-queens instance with a concrete
oracle and `max_iter = 100`. -/
theorem claim_C8_witness :
    totalPosible reinas2 < mcCentinela ∧ (∀ x ∈ reinas2.X, reinas2D x ≠ ∅) ∧
    (((minimos_conflictos reinas2 reinas2D (fun t => t) 100 5).2 ≤ 100) ∧
     ((minimos_conflictos reinas2 reinas2D (fun t => t) 100 5).1 ≠ .err) ∧
     (∀ a, (minimos_conflictos reinas2 reinas2D (fun t => t) 100 5).1 = .found a →
       totalConf reinas2 a = 0 ∧ ∀ p ∈ a, p.2 ∈ reinas2D p.1) ∧
     ((∀ a : Asg, (∀ p ∈ a, p.2 ∈ reinas2D p.1) → totalConf reinas2 a ≠ 0) →
       (minimos_conflictos reinas2 reinas2D (fun t => t) 100 5).1 = .gaveUp)) :=
  ⟨by decide, by decide,
    claim_C8 reinas2 reinas2D (fun t => t) 100 5 (by decide) (by decide)⟩

theorem checkAsg_iff (csp : ProblemaCSP) (asg : Asg) (xi vi : Nat) :
    checkAsg csp asg xi vi = true ↔
      ∀ q ∈ asg, q.1 ∈ csp.N xi →
        csp.restriccion_binaria xi vi q.1 q.2 = true := by
  unfold checkAsg
  rw [List.all_eq_true]
  constructor
  · intro h q hq hqN
    have := h q hq
    simp only [Bool.or_eq_true, Bool.not_eq_true', decide_eq_false_iff_not] at this
    rcases this with hn | hr
    · exact absurd hqN hn
    · exact hr
  · intro h q hq
    simp only [Bool.or_eq_true, Bool.not_eq_true', decide_eq_false_iff_not]
    by_cases hqN : q.1 ∈ csp.N xi
    · exact Or.inr (h q hq hqN)
    · exact Or.inl hqN

theorem consistencia_ok_check (csp : ProblemaCSP) (D : DMap) (asg : Asg)
    (xi vi lvl : Nat) (D' : DMap) (red' : RMap)
    (h : consistencia csp D asg xi vi lvl = .ok D' red') :
    checkAsg csp asg xi vi = true := by
  by_cases hchk : checkAsg csp asg xi vi = true
  · exact hchk
  · exfalso
    unfold consistencia at h
    rw [if_pos (by simpa using hchk)] at h
    cases h

theorem foldlPick_mem (c : Nat → Nat → Prop) [DecidableRel c] :
    ∀ (xs : List Nat) (b : Nat),
      xs.foldl (fun b y => if c b y then y else b) b ∈ b :: xs := by
  intro xs
  induction xs with
  | nil => intro b; exact List.mem_cons_self _ _
  | cons y ys ih =>
    intro b
    simp only [List.foldl_cons]
    by_cases h : c b y
    · rw [if_pos h]
      exact List.mem_cons_of_mem _ (ih y)
    · rw [if_neg h]
      rcases List.mem_cons.mp (ih b) with heq | hmem
      · rw [heq]
        exact List.mem_cons_self _ _
      · exact List.mem_cons_of_mem _ (List.mem_cons_of_mem _ hmem)

theorem selecciona_mem (csp : ProblemaCSP) (D : DMap) (asg : Asg) (var : Nat)
    (h : selecciona_variable csp D asg = some var) :
    var ∈ csp.X ∧ var ∉ keys asg := by
  unfold selecciona_variable at h
  cases asg with
  | nil =>
    cases hX : csp.X with
    | nil =>
      rw [hX] at h
      cases h
    | cons x xs =>
      rw [hX] at h
      cases h
      constructor
      · exact foldlPick_mem (fun b y => (csp.N b).card < (csp.N y).card) xs x
      · intro hk
        cases hk
  | cons p rest =>
    cases hF : csp.X.filter (fun x => x ∉ keys (p :: rest)) with
    | nil =>
      rw [hF] at h
      cases h
    | cons x xs =>
      rw [hF] at h
      cases h
      have h1 := foldlPick_mem (fun b y => (D y).card < (D b).card) xs x
      rw [← hF] at h1
      have h2 := List.mem_filter.mp h1
      exact ⟨h2.1, by simpa using h2.2⟩

theorem completaChk_keys (csp : ProblemaCSP) (asg : Asg)
    (h : completaChk csp asg = true) :
    (∀ x ∈ csp.X, x ∈ keys asg) ∧ (∀ k ∈ keys asg, k ∈ csp.X) := by
  unfold completaChk at h
  rw [Bool.and_eq_true, List.all_eq_true, List.all_eq_true] at h
  constructor
  · intro z hz
    simpa using h.1 z hz
  · intro z hz
    simpa using h.2 z hz

theorem lookup_mem (a : Asg) (x : Nat) (hx : x ∈ keys a) :
    (x, lookupV a x) ∈ a := by
  unfold lookupV
  cases hf : a.find? (fun p => p.1 == x) with
  | none =>
    exfalso
    obtain ⟨p, hp, hpx⟩ := List.mem_map.mp hx
    have hno := List.find?_eq_none.mp hf p hp
    apply hno
    simpa using hpx
  | some q =>
    have hq := List.find?_some hf
    have hqx : q.1 = x := by simpa using hq
    have hqm := List.mem_of_find?_eq_some hf
    show (x, q.2) ∈ a
    rw [← hqx]
    exact (show (q.1, q.2) = q from rfl) ▸ hqm

theorem pairwise_mem_or {α : Type} {r : α → α → Prop} :
    ∀ {l : List α}, l.Pairwise r → ∀ {p q : α}, p ∈ l → q ∈ l →
      p = q ∨ r p q ∨ r q p := by
  intro l hl
  induction hl with
  | nil =>
    intro p q hp _
    cases hp
  | cons hhead _ ih =>
    intro p q hp hq
    rcases List.mem_cons.mp hp with rfl | hp2
    · rcases List.mem_cons.mp hq with rfl | hq2
      · exact Or.inl rfl
      · exact Or.inr (Or.inl (hhead q hq2))
    · rcases List.mem_cons.mp hq with rfl | hq2
      · exact Or.inr (Or.inr (hhead p hp2))
      · exact ih hp2 hq2

theorem tryVals_sound (csp : ProblemaCSP) (lvl var : Nat) (D₀ : DMap)
    (recur : DMap → Asg → Nat → Option Asg × DMap × Nat)
    (hirr : ∀ x, x ∉ csp.N x)
    (hrecR : ∀ D a b y, (recur D a b).2.1 y = D y)
    (hrec : ∀ (D : DMap) (asg : Asg) (bt : Nat) (a : Asg),
      (∀ p ∈ asg, p.2 ∈ D₀ p.1) → (∀ y, D y ⊆ D₀ y) → StackCons csp asg →
      (keys asg).Nodup →
      (recur D asg bt).1 = some a →
      StackCons csp a ∧ (keys a).Nodup ∧ (∀ p ∈ a, p.2 ∈ D₀ p.1) ∧
        completaChk csp a = true) :
    ∀ (vals : List Nat) (D : DMap) (asg : Asg) (bt : Nat) (a : Asg),
      (∀ v ∈ vals, v ∈ D var) →
      (∀ p ∈ asg, p.2 ∈ D₀ p.1) → (∀ y, D y ⊆ D₀ y) → StackCons csp asg →
      (keys asg).Nodup → var ∉ keys asg →
      (tryVals csp lvl var recur vals D asg bt).1 = some a →
      StackCons csp a ∧ (keys a).Nodup ∧ (∀ p ∈ a, p.2 ∈ D₀ p.1) ∧
        completaChk csp a = true := by
  intro vals
  induction vals with
  | nil =>
    intro D asg bt a _ _ _ _ _ _ h
    cases h
  | cons v rest ih =>
    intro D asg bt a hvmem hvals hsub hst hnd hvk h
    have hvD : v ∈ D var := hvmem v (List.mem_cons_self _ _)
    have hci := consistencia_inv csp D asg var v lvl hvD (hirr var)
    rw [tryVals] at h
    cases hc : consistencia csp D asg var v lvl with
    | fail Dr =>
      rw [hc] at h
      dsimp only at h
      have hDr : ∀ z, Dr z = D z := hci.1 Dr hc
      refine ih Dr asg (bt + 1) a ?_ hvals ?_ hst hnd hvk h
      · intro w hw
        rw [hDr var]
        exact hvmem w (List.mem_cons_of_mem _ hw)
      · intro y
        rw [hDr y]
        exact hsub y
    | ok D1 red =>
      rw [hc] at h
      dsimp only at h
      obtain ⟨hinv, hsub1⟩ := hci.2 D1 red hc
      have hchk := consistencia_ok_check csp D asg var v lvl D1 red hc
      have hsub1' : ∀ y, D1 y ⊆ D₀ y := fun y => le_trans (hsub1 y) (hsub y)
      have hvals' : ∀ p ∈ ((var, v) :: asg : Asg), p.2 ∈ D₀ p.1 := by
        intro p hp
        rcases List.mem_cons.mp hp with rfl | hp2
        · exact hsub var hvD
        · exact hvals p hp2
      have hst' : StackCons csp ((var, v) :: asg) := by
        refine List.pairwise_cons.mpr ⟨?_, hst⟩
        intro q hq hqN
        exact (checkAsg_iff csp asg var v).mp hchk q hq hqN
      have hnd' : (keys ((var, v) :: asg)).Nodup :=
        List.nodup_cons.mpr ⟨hvk, hnd⟩
      rcases hr : recur D1 ((var, v) :: asg) bt with ⟨res, D2, bt2⟩
      rw [hr] at h
      have hD2 : ∀ z, D2 z = D1 z := by
        intro z
        have := hrecR D1 ((var, v) :: asg) bt z
        rw [hr] at this
        exact this
      have hrest : ∀ z, restoreD D2 red z = D z := by
        intro z
        show D2 z ∪ red z = D z
        rw [hD2 z]
        exact hinv z
      cases res with
      | some a2 =>
        dsimp only at h
        cases h
        exact hrec D1 ((var, v) :: asg) bt a hvals' hsub1' hst' hnd'
          (by rw [hr])

      | none =>
        dsimp only at h
        refine ih (restoreD D2 red) asg bt2 a ?_ hvals ?_ hst hnd hvk h
        · intro w hw
          rw [hrest var]
          exact hvmem w (List.mem_cons_of_mem _ hw)
        · intro y
          rw [hrest y]
          exact hsub y

theorem agr_sound (csp : ProblemaCSP) (lvl : Nat) (D₀ : DMap)
    (hirr : ∀ x, x ∉ csp.N x) :
    ∀ (fuel : Nat) (D : DMap) (asg : Asg) (bt : Nat) (a : Asg),
      (∀ p ∈ asg, p.2 ∈ D₀ p.1) → (∀ y, D y ⊆ D₀ y) → StackCons csp asg →
      (keys asg).Nodup →
      (asignacion_grafo_restriccion csp lvl fuel D asg bt).1 = some a →
      StackCons csp a ∧ (keys a).Nodup ∧ (∀ p ∈ a, p.2 ∈ D₀ p.1) ∧
        completaChk csp a = true := by
  intro fuel
  induction fuel with
  | zero =>
    intro D asg bt a _ _ _ _ h
    cases h
  | succ n ih =>
    intro D asg bt a hvals hsub hst hnd h
    rw [asignacion_grafo_restriccion] at h
    by_cases hcomp : completaChk csp asg = true
    · rw [if_pos hcomp] at h
      cases h
      exact ⟨hst, hnd, hvals, hcomp⟩
    · rw [if_neg hcomp] at h
      cases hsel : selecciona_variable csp D asg with
      | none =>
        rw [hsel] at h
        cases h
      | some var =>
        rw [hsel] at h
        dsimp only at h
        obtain ⟨hvX, hvk⟩ := selecciona_mem csp D asg var hsel
        exact tryVals_sound csp lvl var D₀ _ hirr
          (fun D' a' b' y => agr_restore csp lvl hirr n D' a' b' y)
          (fun D' a' b' a2 h1 h2 h3 h4 h5 => ih D' a' b' a2 h1 h2 h3 h4 h5)
          (ordena_valores csp D asg var) D asg bt a
          (fun w hw => (ordena_valores_mem csp D asg var w).mp hw)
          hvals hsub hst hnd hvk h

theorem stack_to_pairs (csp : ProblemaCSP) (a : Asg)
    (hirr : ∀ x, x ∉ csp.N x)
    (hNsym : ∀ x y, y ∈ csp.N x ↔ x ∈ csp.N y)
    (hRsym : ∀ x vx y vy,
      csp.restriccion_binaria x vx y vy = csp.restriccion_binaria y vy x vx)
    (hclosed : ∀ x ∈ csp.X, ∀ y ∈ csp.N x, y ∈ csp.X)
    (hst : StackCons csp a) (hcomp : completaChk csp a = true) :
    ∀ x ∈ csp.X, ∀ y ∈ csp.N x,
      csp.restriccion_binaria x (lookupV a x) y (lookupV a y) = true := by
  intro x hx y hyN
  have hyX : y ∈ csp.X := hclosed x hx y hyN
  obtain ⟨hk1, _⟩ := completaChk_keys csp a hcomp
  have hxm : (x, lookupV a x) ∈ a := lookup_mem a x (hk1 x hx)
  have hym : (y, lookupV a y) ∈ a := lookup_mem a y (hk1 y hyX)
  rcases pairwise_mem_or hst hxm hym with heq | hpq | hqp
  · exfalso
    have hxy : x = y := congrArg Prod.fst heq
    exact hirr x (hxy ▸ hyN)
  · exact hpq hyN
  · have hr := hqp ((hNsym x y).mp hyN)
    rw [hRsym x (lookupV a x) y (lookupV a y)]
    exact hr

theorem mcRepara_cases (csp : ProblemaCSP) (D : DMap) (ora : Nat → Nat)
    (asg : Asg) (t used : Nat) (cont : Asg → Nat → MCRes × Nat) :
    mcRepara csp D ora asg t used cont = (.err, used + 1) ∨
    ∃ a2 t2, mcRepara csp D ora asg t used cont = cont a2 t2 := by
  unfold mcRepara
  cases mcChoice ora t (csp.X.filter fun x => 0 < conflictosMC csp asg x) with
  | none => exact Or.inl rfl
  | some x =>
    dsimp only
    cases pickMinBy (fun v => confCon csp asg x v) (sortFin (D x)) with
    | none => exact Or.inl rfl
    | some v => exact Or.inr ⟨_, _, rfl⟩

theorem mcLoop_found (csp : ProblemaCSP) (D : DMap) (ora : Nat → Nat) (pac : Nat) :
    ∀ (fuel : Nat) (asg : Asg) (t minc : Nat) (rep : Option Nat) (used : Nat)
      (a : Asg),
      (mcLoop csp D ora pac fuel asg t minc rep used).1 = .found a →
      totalConf csp a = 0 := by
  intro fuel
  induction fuel with
  | zero =>
    intro asg t minc rep used a h
    cases h
  | succ n ih =>
    intro asg t minc rep used a h
    rw [mcLoop.eq_def] at h
    dsimp only at h
    by_cases h0 : totalConf csp asg = 0
    · rw [if_pos h0] at h
      cases h
      exact h0
    · rw [if_neg h0] at h
      by_cases h1 : totalConf csp asg < minc
      · rw [if_pos h1] at h
        rcases mcRepara_cases csp D ora asg t used _ with herr | ⟨a2, t2, heq⟩
        · rw [herr] at h
          cases h
        · rw [heq] at h
          exact ih _ _ _ _ _ a h
      · rw [if_neg h1] at h
        by_cases h2 : totalConf csp asg = minc
        · rw [if_pos h2] at h
          cases rep with
          | none => cases h
          | some r =>
            dsimp only at h
            by_cases h3 : pac < r + 1
            · rw [if_pos h3] at h
              cases hinit : mcInit csp D ora t csp.X with
              | none =>
                rw [hinit] at h
                cases h
              | some p =>
                rw [hinit] at h
                dsimp only at h
                exact ih _ _ _ _ _ a h
            · rw [if_neg h3] at h
              rcases mcRepara_cases csp D ora asg t used _ with herr | ⟨a2, t2, heq⟩
              · rw [herr] at h
                cases h
              · rw [heq] at h
                exact ih _ _ _ _ _ a h
        · rw [if_neg h2] at h
          rcases mcRepara_cases csp D ora asg t used _ with herr | ⟨a2, t2, heq⟩
          · rw [herr] at h
            cases h
          · rw [heq] at h
            exact ih _ _ _ _ _ a h

/-- C1: soundness of both entry points.  Under the capability contract
(no self-loops, symmetric neighbor map closed over the variable list, and a
logically symmetric predicate), whenever `asignacion_completa` returns an
assignment, or `minimos_conflictos` returns `found`, the compatibility
predicate holds on the assigned values of every pair of neighboring
variables. -/
theorem claim_C1 (csp : ProblemaCSP) (D : DMap) (lvl : Nat) (ora : Nat → Nat)
    (mi pac : Nat)
    (hirr : ∀ x, x ∉ csp.N x)
    (hNsym : ∀ x y, y ∈ csp.N x ↔ x ∈ csp.N y)
    (hRsym : ∀ x vx y vy,
      csp.restriccion_binaria x vx y vy = csp.restriccion_binaria y vy x vx)
    (hclosed : ∀ x ∈ csp.X, ∀ y ∈ csp.N x, y ∈ csp.X) :
    (∀ a, (asignacion_completa csp D lvl).1 = some a →
      ∀ x ∈ csp.X, ∀ y ∈ csp.N x,
        csp.restriccion_binaria x (lookupV a x) y (lookupV a y) = true) ∧
    (∀ a, (minimos_conflictos csp D ora mi pac).1 = .found a →
      ∀ x ∈ csp.X, ∀ y ∈ csp.N x,
        csp.restriccion_binaria x (lookupV a x) y (lookupV a y) = true) := by
  constructor
  · intro a hsome
    obtain ⟨hst, _hnd, _hvals, hcomp⟩ :=
      agr_sound csp lvl D hirr (csp.X.length + 1) D [] 0 a
        (fun p hp => absurd hp (List.not_mem_nil p))
        (fun y => subset_rfl) List.Pairwise.nil List.nodup_nil hsome
    exact stack_to_pairs csp a hirr hNsym hRsym hclosed hst hcomp
  · intro a hfound
    unfold minimos_conflictos at hfound
    cases hinit : mcInit csp D ora 0 csp.X with
    | none =>
      rw [hinit] at hfound
      cases hfound
    | some p =>
      rw [hinit] at hfound
      dsimp only at hfound
      exact totalConf_zero_pairs csp a
        (mcLoop_found csp D ora pac mi p.1 p.2 mcCentinela none 0 a hfound)

/-- Witness for C1: the one-variable instance satisfies the contract
hypotheses; both soundness conjuncts hold there. -/
theorem claim_C1_witness :
    (∀ x, x ∉ c5csp.N x) ∧
    ((∀ a, (asignacion_completa c5csp c5D 1).1 = some a →
        ∀ x ∈ c5csp.X, ∀ y ∈ c5csp.N x,
          c5csp.restriccion_binaria x (lookupV a x) y (lookupV a y) = true) ∧
     (∀ a, (minimos_conflictos c5csp c5D (fun t => t) 10 5).1 = .found a →
        ∀ x ∈ c5csp.X, ∀ y ∈ c5csp.N x,
          c5csp.restriccion_binaria x (lookupV a x) y (lookupV a y) = true)) :=
  ⟨c5csp_irrefl,
    claim_C1 c5csp c5D 1 (fun t => t) 10 5 c5csp_irrefl
      (fun x y => by simp [c5csp])
      (fun x vx y vy => rfl)
      (fun x _ y hy => absurd hy (by simp [c5csp]))⟩

theorem pushPend_mem : ∀ (l pend : List (Nat × Nat)) (p : Nat × Nat),
    p ∈ pushPend pend l ↔ p ∈ pend ∨ p ∈ l := by
  intro l
  induction l with
  | nil =>
    intro pend p
    simp [pushPend]
  | cons q qs ih =>
    intro pend p
    unfold pushPend
    rw [ih]
    by_cases hq : q ∈ pend
    · rw [if_pos hq]
      constructor
      · rintro (h | h)
        · exact Or.inl h
        · exact Or.inr (List.mem_cons_of_mem _ h)
      · rintro (h | h)
        · exact Or.inl h
        · rcases List.mem_cons.mp h with rfl | h2
          · exact Or.inl hq
          · exact Or.inr h2
    · rw [if_neg hq]
      simp only [List.mem_append, List.mem_singleton, List.mem_cons]
      tauto

theorem pushPend_nodup : ∀ (l pend : List (Nat × Nat)), pend.Nodup →
    (pushPend pend l).Nodup := by
  intro l
  induction l with
  | nil =>
    intro pend h
    exact h
  | cons q qs ih =>
    intro pend h
    unfold pushPend
    by_cases hq : q ∈ pend
    · rw [if_pos hq]
      exact ih pend h
    · rw [if_neg hq]
      refine ih _ ?_
      rw [List.nodup_append]
      exact ⟨h, List.nodup_singleton q, by simpa using hq⟩

theorem natSum_lt_map {l : List Nat} {f g : Nat → Nat} {a : Nat}
    (hle : ∀ x ∈ l, f x ≤ g x) (ha : a ∈ l) (hlt : f a < g a) :
    (l.map f).sum < (l.map g).sum := by
  induction l with
  | nil => cases ha
  | cons y ys ih =>
    simp only [List.map_cons, List.sum_cons]
    have hy := hle y (List.mem_cons_self _ _)
    have hrest : (ys.map f).sum ≤ (ys.map g).sum :=
      natSum_le_map fun x hx => hle x (List.mem_cons_of_mem _ hx)
    rcases List.mem_cons.mp ha with rfl | ha2
    · omega
    · have := ih (fun x hx => hle x (List.mem_cons_of_mem _ hx)) ha2
      omega

theorem nodup_length_le {l : List (Nat × Nat)} {F : Finset (Nat × Nat)}
    (hnd : l.Nodup) (hsub : ∀ p ∈ l, p ∈ F) : l.length ≤ F.card := by
  classical
  have h1 : l.toFinset.card = l.length := List.toFinset_card_of_nodup hnd
  have h2 : l.toFinset ⊆ F := fun p hp => hsub p (List.mem_toFinset.mp hp)
  rw [← h1]
  exact Finset.card_le_card h2

theorem reenqueue_mem (csp : ProblemaCSP) (asg : Asg) (xa : Nat)
    (p : Nat × Nat) (hp : p ∈ reenqueue csp asg xa) :
    p.1 = xa ∧ p.2 ∈ csp.N xa ∧ p.2 ∉ keys asg := by
  unfold reenqueue at hp
  obtain ⟨xj, hxj, rfl⟩ := List.mem_map.mp hp
  have h2 := List.mem_filter.mp hxj
  exact ⟨rfl, (sortFin_mem _ xj).mp h2.1, by simpa using h2.2⟩

theorem initPend_mem (csp : ProblemaCSP) (asg : Asg) (p : Nat × Nat)
    (hp : p ∈ initPend csp asg) :
    p.1 ∈ csp.X ∧ p.1 ∉ keys asg ∧ p.2 ∈ csp.N p.1 ∧ p.2 ∉ keys asg := by
  unfold initPend at hp
  obtain ⟨xa, hxa, hmem⟩ := List.mem_flatMap.mp hp
  obtain ⟨xj, hxj, rfl⟩ := List.mem_map.mp hmem
  have h1 := List.mem_filter.mp hxa
  have h2 := List.mem_filter.mp hxj
  exact ⟨h1.1, by simpa using h1.2, (sortFin_mem _ xj).mp h2.1, by simpa using h2.2⟩

theorem flatMap_pairs_nodup (csp : ProblemaCSP) (asg : Asg) :
    ∀ (l : List Nat), l.Nodup →
      (l.flatMap fun xa =>
        ((sortFin (csp.N xa)).filter fun xj => xj ∉ keys asg).map
          fun xj => (xa, xj)).Nodup := by
  intro l
  induction l with
  | nil =>
    intro _
    simp
  | cons a l ih =>
    intro hnd
    rw [List.flatMap_cons, List.nodup_append]
    refine ⟨?_, ih hnd.of_cons, ?_⟩
    · refine List.Nodup.map ?_ ((sortFin_nodup _).filter _)
      intro u v huv
      exact congrArg Prod.snd huv
    · intro p hp1 hp2
      obtain ⟨xj, _, rfl⟩ := List.mem_map.mp hp1
      obtain ⟨xb, hxb, hmem⟩ := List.mem_flatMap.mp hp2
      obtain ⟨xj2, _, heq⟩ := List.mem_map.mp hmem
      have : xb = a := by
        have h5 := congrArg Prod.fst heq
        simpa using h5
      rw [this] at hxb
      exact (List.nodup_cons.mp hnd).1 hxb

theorem initPend_nodup (csp : ProblemaCSP) (asg : Asg) (hX : csp.X.Nodup) :
    (initPend csp asg).Nodup :=
  flatMap_pairs_nodup csp asg _ (hX.filter _)

theorem pend_length_le (csp : ProblemaCSP) {pend : List (Nat × Nat)}
    (hnd : pend.Nodup)
    (hsub : ∀ p ∈ pend, p.1 ∈ csp.X ∧ p.2 ∈ csp.X) :
    pend.length ≤ csp.X.length * csp.X.length := by
  classical
  have h1 : pend.length ≤ (csp.X.toFinset ×ˢ csp.X.toFinset).card := by
    refine nodup_length_le hnd ?_
    intro p hp
    exact Finset.mem_product.mpr
      ⟨List.mem_toFinset.mpr (hsub p hp).1, List.mem_toFinset.mpr (hsub p hp).2⟩
  calc pend.length ≤ (csp.X.toFinset ×ˢ csp.X.toFinset).card := h1
    _ = csp.X.toFinset.card * csp.X.toFinset.card := Finset.card_product _ _
    _ ≤ csp.X.length * csp.X.length :=
        Nat.mul_le_mul csp.X.toFinset_card_le csp.X.toFinset_card_le

theorem fcLoop_sol (csp : ProblemaCSP) (D₀ : DMap) (s : Nat → Nat)
    (hsol : Solucion csp D₀ s)
    (hclosed : ∀ x ∈ csp.X, ∀ y ∈ csp.N x, y ∈ csp.X)
    (asg : Asg) (xi : Nat) (hxiX : xi ∈ csp.X) :
    ∀ (l : List Nat) (D : DMap) (red : RMap),
      (∀ xj ∈ l, xj ∈ csp.N xi) →
      (∀ y ∈ csp.X, y ∉ keys asg → s y ∈ D y) →
      (∀ Dr, fcLoop csp asg xi (s xi) l D red ≠ .fail Dr) ∧
      (∀ D' red', fcLoop csp asg xi (s xi) l D red = .ok D' red' →
        ∀ y ∈ csp.X, y ∉ keys asg → s y ∈ D' y) := by
  intro l
  induction l with
  | nil =>
    intro D red _ hs
    constructor
    · intro Dr h
      simp [fcLoop] at h
    · intro D' red' h
      cases h
      exact hs
  | cons xj rest ih =>
    intro D red hl hs
    have hxjN : xj ∈ csp.N xi := hl xj (List.mem_cons_self _ _)
    have hxjX : xj ∈ csp.X := hclosed xi hxiX xj hxjN
    have hlr : ∀ z ∈ rest, z ∈ csp.N xi := fun z hz => hl z (List.mem_cons_of_mem _ hz)
    by_cases hk : xj ∈ keys asg
    · simp only [fcLoop, if_pos hk]
      exact ih D red hlr hs
    · simp only [fcLoop, if_neg hk]
      have hsxj : s xj ∈ D xj := hs xj hxjX hk
      have hRxj : csp.restriccion_binaria xi (s xi) xj (s xj) = true :=
        hsol.2 xi hxiX xj hxjN
      by_cases hvs : (D xj).filter
          (fun vj => ¬ csp.restriccion_binaria xi (s xi) xj vj) = ∅
      · rw [if_pos hvs, if_pos hvs, if_neg (Finset.ne_empty_of_mem hsxj)]
        exact ih D red hlr hs
      · rw [if_neg hvs, if_neg hvs, updD_same]
        have hsxj2 : s xj ∈ D xj \ (D xj).filter
            (fun vj => ¬ csp.restriccion_binaria xi (s xi) xj vj) := by
          rw [Finset.mem_sdiff]
          refine ⟨hsxj, ?_⟩
          intro hmem
          have := (Finset.mem_filter.mp hmem).2
          simp [hRxj] at this
        rw [if_neg (Finset.ne_empty_of_mem hsxj2)]
        refine ih _ _ hlr ?_
        intro y hyX hyk
        by_cases hy : y = xj
        · subst hy
          rw [updD_same]
          exact hsxj2
        · rw [updD_other _ _ _ hy]
          exact hs y hyX hyk

theorem ac3_sol (csp : ProblemaCSP) (D₀ : DMap) (s : Nat → Nat)
    (hsol : Solucion csp D₀ s)
    (hclosed : ∀ x ∈ csp.X, ∀ y ∈ csp.N x, y ∈ csp.X)
    (asg : Asg) :
    ∀ (fuel : Nat) (pend : List (Nat × Nat)) (D : DMap) (red : RMap),
      (∀ p ∈ pend, p.1 ∈ csp.X ∧ p.1 ∉ keys asg ∧
        p.2 ∈ csp.N p.1 ∧ p.2 ∉ keys asg) →
      pend.Nodup →
      (∀ y ∈ csp.X, y ∉ keys asg → s y ∈ D y) →
      medida csp D pend < fuel →
      (∀ Dr, ac3 csp asg fuel pend D red ≠ .fail Dr) ∧
      (∀ D' red', ac3 csp asg fuel pend D red = .ok D' red' →
        ∀ y ∈ csp.X, y ∉ keys asg → s y ∈ D' y) := by
  intro fuel
  induction fuel with
  | zero =>
    intro pend D red _ _ _ hfuel
    exact absurd hfuel (Nat.not_lt_zero _)
  | succ n ih =>
    intro pend D red hpend hnd hs hfuel
    match pend with
    | [] =>
      constructor
      · intro Dr h
        simp only [ac3] at h
        cases h
      · intro D' red' h
        simp only [ac3] at h
        cases h
        exact hs
    | (xa, xb) :: rest =>
      obtain ⟨hxaX, hxak, hxbN, hxbk⟩ := hpend (xa, xb) (List.mem_cons_self _ _)
      have hxbX : xb ∈ csp.X := hclosed xa hxaX xb hxbN
      have hsxa : s xa ∈ D xa := hs xa hxaX hxak
      have hsxb : s xb ∈ D xb := hs xb hxbX hxbk
      have hR : csp.restriccion_binaria xa (s xa) xb (s xb) = true :=
        hsol.2 xa hxaX xb hxbN
      have hnot : s xa ∉ sinSoporte csp D xa xb := by
        intro hmem
        have h2 := (Finset.mem_filter.mp hmem).2
        have h3 : s xb ∈ soporte csp D xa (s xa) xb :=
          Finset.mem_filter.mpr ⟨hsxb, hR⟩
        rw [h2] at h3
        cases h3
      simp only [ac3]
      by_cases hvs : sinSoporte csp D xa xb = ∅
      · rw [if_pos hvs]
        refine ih rest D red (fun p hp => hpend p (List.mem_cons_of_mem _ hp))
          hnd.of_cons hs ?_
        unfold medida at hfuel ⊢
        simp only [List.length_cons] at hfuel
        omega
      · rw [if_neg hvs, updD_same]
        have hsub : sinSoporte csp D xa xb ⊆ D xa := Finset.filter_subset _ _
        have hsxa2 : s xa ∈ D xa \ sinSoporte csp D xa xb :=
          Finset.mem_sdiff.mpr ⟨hsxa, hnot⟩
        rw [if_neg (Finset.ne_empty_of_mem hsxa2)]
        have hpend2 : ∀ p ∈ pushPend rest (reenqueue csp asg xa),
            p.1 ∈ csp.X ∧ p.1 ∉ keys asg ∧ p.2 ∈ csp.N p.1 ∧ p.2 ∉ keys asg := by
          intro p hp
          rcases (pushPend_mem _ _ p).mp hp with h | h
          · exact hpend p (List.mem_cons_of_mem _ h)
          · obtain ⟨h1, h2, h3⟩ := reenqueue_mem csp asg xa p h
            rw [h1]
            exact ⟨hxaX, hxak, h1 ▸ h2, h3⟩
        have hnd2 : (pushPend rest (reenqueue csp asg xa)).Nodup :=
          pushPend_nodup _ rest hnd.of_cons
        have hs2 : ∀ y ∈ csp.X, y ∉ keys asg →
            s y ∈ updD D xa (D xa \ sinSoporte csp D xa xb) y := by
          intro y hyX hyk
          by_cases hy : y = xa
          · subst hy
            rw [updD_same]
            exact hsxa2
          · rw [updD_other _ _ _ hy]
            exact hs y hyX hyk
        refine ih _ _ _ hpend2 hnd2 hs2 ?_
        have hcard : (D xa \ sinSoporte csp D xa xb).card < (D xa).card :=
          Finset.card_lt_card
            (Finset.sdiff_ssubset hsub (Finset.nonempty_iff_ne_empty.mpr hvs))
        have hsum : sumDom csp (updD D xa (D xa \ sinSoporte csp D xa xb)) + 1 ≤
            sumDom csp D := by
          refine Nat.succ_le_of_lt ?_
          unfold sumDom
          refine natSum_lt_map ?_ hxaX ?_
          · intro x _
            by_cases hx : x = xa
            · subst hx
              rw [updD_same]
              exact Finset.card_le_card Finset.sdiff_subset
            · rw [updD_other _ _ _ hx]
          · rw [updD_same]
            exact hcard
        have hlen : (pushPend rest (reenqueue csp asg xa)).length ≤
            csp.X.length * csp.X.length := by
          refine pend_length_le csp hnd2 ?_
          intro p hp
          obtain ⟨h1, _, h3, _⟩ := hpend2 p hp
          exact ⟨h1, hclosed p.1 h1 p.2 h3⟩
        unfold medida at hfuel ⊢
        simp only [List.length_cons] at hfuel
        have hSBn : sumDom csp D * (csp.X.length * csp.X.length + 1) ≤ n := by
          have h6 : sumDom csp D * (csp.X.length * csp.X.length + 1) ≤
              sumDom csp D * (csp.X.length * csp.X.length + 1) +
                (rest.length + 1) := Nat.le_add_right _ _
          omega
        have hstep : sumDom csp (updD D xa (D xa \ sinSoporte csp D xa xb)) *
              (csp.X.length * csp.X.length + 1) +
              (csp.X.length * csp.X.length + 1) ≤
            sumDom csp D * (csp.X.length * csp.X.length + 1) := by
          calc sumDom csp (updD D xa (D xa \ sinSoporte csp D xa xb)) *
                (csp.X.length * csp.X.length + 1) +
                (csp.X.length * csp.X.length + 1)
              = (sumDom csp (updD D xa (D xa \ sinSoporte csp D xa xb)) + 1) *
                (csp.X.length * csp.X.length + 1) := by ring
            _ ≤ sumDom csp D * (csp.X.length * csp.X.length + 1) :=
                Nat.mul_le_mul_right _ hsum
        calc sumDom csp (updD D xa (D xa \ sinSoporte csp D xa xb)) *
              (csp.X.length * csp.X.length + 1) +
              (pushPend rest (reenqueue csp asg xa)).length
            < sumDom csp (updD D xa (D xa \ sinSoporte csp D xa xb)) *
              (csp.X.length * csp.X.length + 1) +
              (csp.X.length * csp.X.length + 1) := by omega
          _ ≤ sumDom csp D * (csp.X.length * csp.X.length + 1) := hstep
          _ ≤ n := hSBn

theorem consistencia_sol (csp : ProblemaCSP) (D₀ : DMap) (s : Nat → Nat)
    (hsol : Solucion csp D₀ s)
    (hclosed : ∀ x ∈ csp.X, ∀ y ∈ csp.N x, y ∈ csp.X)
    (hXnd : csp.X.Nodup)
    (D : DMap) (asg : Asg) (xi lvl : Nat)
    (hxiX : xi ∈ csp.X)
    (hext : ∀ p ∈ asg, s p.1 = p.2)
    (hs : ∀ y ∈ csp.X, y ∉ keys asg → s y ∈ D y) :
    (∀ Dr, consistencia csp D asg xi (s xi) lvl ≠ .fail Dr) ∧
    (∀ D' red', consistencia csp D asg xi (s xi) lvl = .ok D' red' →
      ∀ y ∈ csp.X, y ∉ keys asg → s y ∈ D' y) := by
  have hchk : checkAsg csp asg xi (s xi) = true := by
    rw [checkAsg_iff]
    intro q hq hqN
    have h1 : s q.1 = q.2 := hext q hq
    rw [← h1]
    exact hsol.2 xi hxiX q.1 hqN
  simp only [consistencia]
  rw [if_neg (not_not_intro hchk)]
  have hs0 : ∀ y ∈ csp.X, y ∉ keys asg → s y ∈ updD D xi {s xi} y := by
    intro y hyX hyk
    by_cases hy : y = xi
    · subst hy
      rw [updD_same]
      exact Finset.mem_singleton_self _
    · rw [updD_other _ _ _ hy]
      exact hs y hyX hyk
  by_cases hlvl : 1 ≤ lvl
  · rw [if_pos hlvl]
    have hfc := fcLoop_sol csp D₀ s hsol hclosed asg xi hxiX (sortFin (csp.N xi))
      (updD D xi {s xi}) (updD (fun _ => ∅) xi ((D xi).erase (s xi)))
      (fun xj hxj => (sortFin_mem _ xj).mp hxj) hs0
    cases hres : fcLoop csp asg xi (s xi) (sortFin (csp.N xi))
        (updD D xi {s xi}) (updD (fun _ => ∅) xi ((D xi).erase (s xi))) with
    | fail Dr0 => exact absurd hres (hfc.1 Dr0)
    | ok D1 red1 =>
      dsimp only
      have hs1 := hfc.2 D1 red1 hres
      by_cases h2 : lvl = 2
      · rw [if_pos h2]
        have hmem2 := fun p hp => initPend_mem csp asg p hp
        have hlen : (initPend csp asg).length ≤ csp.X.length * csp.X.length := by
          refine pend_length_le csp (initPend_nodup csp asg hXnd) ?_
          intro p hp
          obtain ⟨ha, _, hb, _⟩ := hmem2 p hp
          exact ⟨ha, hclosed p.1 ha p.2 hb⟩
        have hfuel : medida csp D1 (initPend csp asg) < ac3Fuel csp D1 := by
          unfold medida ac3Fuel
          have heq : (sumDom csp D1 + 1) * (csp.X.length * csp.X.length + 1) + 1 =
              sumDom csp D1 * (csp.X.length * csp.X.length + 1) +
                (csp.X.length * csp.X.length + 2) := by ring
          rw [heq]
          exact Nat.add_lt_add_left (by omega) _
        have hac := ac3_sol csp D₀ s hsol hclosed asg (ac3Fuel csp D1)
          (initPend csp asg) D1 red1 hmem2 (initPend_nodup csp asg hXnd) hs1 hfuel
        exact ⟨hac.1, hac.2⟩
      · rw [if_neg h2]
        constructor
        · intro Dr h
          cases h
        · intro D' red' h
          cases h
          exact hs1
  · rw [if_neg hlvl]
    have h2 : ¬ lvl = 2 := by omega
    dsimp only
    rw [if_neg h2]
    constructor
    · intro Dr h
      cases h
    · intro D' red' h
      cases h
      exact hs0

theorem selecciona_some (csp : ProblemaCSP) (D : DMap) (asg : Asg)
    (hne : csp.X.filter (fun x => x ∉ keys asg) ≠ []) :
    ∃ var, selecciona_variable csp D asg = some var := by
  unfold selecciona_variable
  cases asg with
  | nil =>
    cases hX : csp.X with
    | nil =>
      exfalso
      apply hne
      rw [hX]
      rfl
    | cons x xs => exact ⟨_, rfl⟩
  | cons p rest =>
    cases hF : csp.X.filter (fun x => x ∉ keys (p :: rest)) with
    | nil => exact absurd hF hne
    | cons x xs =>
      exact ⟨_, rfl⟩

theorem length_filter_mono {p q : Nat → Bool}
    (himp : ∀ x, p x = true → q x = true) :
    ∀ l : List Nat, (l.filter p).length ≤ (l.filter q).length := by
  intro l
  induction l with
  | nil => simp
  | cons a l ih =>
    by_cases hp : p a = true
    · rw [List.filter_cons, List.filter_cons, if_pos hp, if_pos (himp a hp)]
      simpa using ih
    · rw [List.filter_cons, List.filter_cons, if_neg hp]
      by_cases hq : q a = true
      · rw [if_pos hq]
        exact le_trans ih (Nat.le_succ _)
      · rw [if_neg hq]
        exact ih

theorem length_filter_keys_lt (var : Nat) (ks : List Nat) :
    ∀ l : List Nat, var ∈ l → var ∉ ks →
      (l.filter fun x => x ∉ (var :: ks)).length <
        (l.filter fun x => x ∉ ks).length := by
  intro l
  induction l with
  | nil =>
    intro h _
    cases h
  | cons a l ih =>
    intro hmem hk
    have himp : ∀ x : Nat,
        (decide (x ∉ (var :: ks))) = true → (decide (x ∉ ks)) = true := by
      intro x hx
      simp only [decide_eq_true_eq] at hx ⊢
      intro hc
      exact hx (List.mem_cons_of_mem _ hc)
    by_cases ha : a = var
    · subst ha
      rw [List.filter_cons, List.filter_cons,
        if_neg (by simp), if_pos (by simpa using hk)]
      simp only [List.length_cons]
      exact Nat.lt_succ_of_le (length_filter_mono himp l)
    · rcases List.mem_cons.mp hmem with heq | hmem2
      · exact absurd heq.symm ha
      · have hlt := ih hmem2 hk
        rw [List.filter_cons, List.filter_cons]
        by_cases hak : a ∈ ks
        · have hb1 : ¬ ((decide (a ∉ (var :: ks))) = true) := by
            simp only [decide_eq_true_eq]
            exact not_not_intro (List.mem_cons_of_mem _ hak)
          have hb2 : ¬ ((decide (a ∉ ks)) = true) := by
            simp only [decide_eq_true_eq]
            exact not_not_intro hak
          rw [if_neg hb1, if_neg hb2]
          exact hlt
        · have ha1 : (decide (a ∉ (var :: ks))) = true := by
            simp only [decide_eq_true_eq]
            intro hc
            rcases List.mem_cons.mp hc with h1 | h2
            · exact ha h1
            · exact hak h2
          rw [if_pos ha1, if_pos (by simpa using hak)]
          simp only [List.length_cons]
          exact Nat.succ_lt_succ hlt

theorem tryVals_complete (csp : ProblemaCSP) (lvl : Nat) (D₀ : DMap)
    (s : Nat → Nat) (hsol : Solucion csp D₀ s)
    (hirr : ∀ x, x ∉ csp.N x)
    (hclosed : ∀ x ∈ csp.X, ∀ y ∈ csp.N x, y ∈ csp.X)
    (hXnd : csp.X.Nodup)
    (var : Nat) (hvX : var ∈ csp.X) (asg : Asg) (hvk : var ∉ keys asg)
    (hext : ∀ p ∈ asg, s p.1 = p.2)
    (recur : DMap → Asg → Nat → Option Asg × DMap × Nat)
    (hrecR : ∀ D a b y, (recur D a b).2.1 y = D y)
    (hrec : ∀ (D : DMap) (bt : Nat),
      (∀ y ∈ csp.X, y ∉ keys ((var, s var) :: asg) → s y ∈ D y) →
      (recur D ((var, s var) :: asg) bt).1.isSome = true) :
    ∀ (vals : List Nat) (D : DMap) (bt : Nat),
      (∀ v ∈ vals, v ∈ D var) →
      s var ∈ vals →
      (∀ y ∈ csp.X, y ∉ keys asg → s y ∈ D y) →
      (tryVals csp lvl var recur vals D asg bt).1.isSome = true := by
  intro vals
  induction vals with
  | nil =>
    intro D bt _ hin _
    cases hin
  | cons v rest ih =>
    intro D bt hvmem hin hs
    have hvD : v ∈ D var := hvmem v (List.mem_cons_self _ _)
    by_cases hv : v = s var
    · subst hv
      have hcs := consistencia_sol csp D₀ s hsol hclosed hXnd D asg var lvl
        hvX hext hs
      simp only [tryVals]
      cases hc : consistencia csp D asg var (s var) lvl with
      | fail Dr => exact absurd hc (hcs.1 Dr)
      | ok D1 red =>
        dsimp only
        have hs1 : ∀ y ∈ csp.X, y ∉ keys ((var, s var) :: asg) → s y ∈ D1 y := by
          intro y hyX hyk
          refine hcs.2 D1 red hc y hyX ?_
          intro hcon
          exact hyk (List.mem_cons_of_mem _ hcon)
        have hrr := hrec D1 bt hs1
        rcases hr : recur D1 ((var, s var) :: asg) bt with ⟨res, D2, bt2⟩
        rw [hr] at hrr
        cases res with
        | none => cases hrr
        | some a => rfl
    · have hci := consistencia_inv csp D asg var v lvl hvD (hirr var)
      have hin2 : s var ∈ rest := by
        rcases List.mem_cons.mp hin with heq | h2
        · exact absurd heq.symm hv
        · exact h2
      simp only [tryVals]
      cases hc : consistencia csp D asg var v lvl with
      | fail Dr =>
        dsimp only
        have hDr : ∀ z, Dr z = D z := hci.1 Dr hc
        refine ih Dr (bt + 1) ?_ hin2 ?_
        · intro w hw
          rw [hDr var]
          exact hvmem w (List.mem_cons_of_mem _ hw)
        · intro y hyX hyk
          rw [hDr y]
          exact hs y hyX hyk
      | ok D1 red =>
        dsimp only
        obtain ⟨hinv, _⟩ := hci.2 D1 red hc
        rcases hr : recur D1 ((var, v) :: asg) bt with ⟨res, D2, bt2⟩
        have hD2 : ∀ z, D2 z = D1 z := by
          intro z
          have h5 := hrecR D1 ((var, v) :: asg) bt z
          rw [hr] at h5
          exact h5
        have hrest : ∀ z, restoreD D2 red z = D z := by
          intro z
          show D2 z ∪ red z = D z
          rw [hD2 z]
          exact hinv z
        cases res with
        | some a => rfl
        | none =>
          dsimp only
          refine ih (restoreD D2 red) bt2 ?_ hin2 ?_
          · intro w hw
            rw [hrest var]
            exact hvmem w (List.mem_cons_of_mem _ hw)
          · intro y hyX hyk
            rw [hrest y]
            exact hs y hyX hyk

theorem agr_complete (csp : ProblemaCSP) (lvl : Nat) (D₀ : DMap)
    (s : Nat → Nat) (hsol : Solucion csp D₀ s)
    (hirr : ∀ x, x ∉ csp.N x)
    (hclosed : ∀ x ∈ csp.X, ∀ y ∈ csp.N x, y ∈ csp.X)
    (hXnd : csp.X.Nodup) :
    ∀ (fuel : Nat) (D : DMap) (asg : Asg) (bt : Nat),
      (csp.X.filter (fun x => x ∉ keys asg)).length < fuel →
      (∀ p ∈ asg, s p.1 = p.2) →
      (∀ k ∈ keys asg, k ∈ csp.X) →
      (∀ y ∈ csp.X, y ∉ keys asg → s y ∈ D y) →
      (asignacion_grafo_restriccion csp lvl fuel D asg bt).1.isSome = true := by
  intro fuel
  induction fuel with
  | zero =>
    intro D asg bt hfuel _ _ _
    exact absurd hfuel (Nat.not_lt_zero _)
  | succ n ih =>
    intro D asg bt hfuel hext hkX hs
    rw [asignacion_grafo_restriccion]
    by_cases hcomp : completaChk csp asg = true
    · rw [if_pos hcomp]
      rfl
    · rw [if_neg hcomp]
      have hne : csp.X.filter (fun x => x ∉ keys asg) ≠ [] := by
        intro hnil
        apply hcomp
        unfold completaChk
        rw [Bool.and_eq_true, List.all_eq_true, List.all_eq_true]
        constructor
        · intro x hx
          simp only [decide_eq_true_eq]
          by_contra hxk
          have hxf : x ∈ csp.X.filter (fun x => x ∉ keys asg) :=
            List.mem_filter.mpr ⟨hx, by simpa using hxk⟩
          rw [hnil] at hxf
          cases hxf
        · intro k hk
          simp only [decide_eq_true_eq]
          exact hkX k hk
      obtain ⟨var, hsel⟩ := selecciona_some csp D asg hne
      rw [hsel]
      dsimp only
      obtain ⟨hvX, hvk⟩ := selecciona_mem csp D asg var hsel
      refine tryVals_complete csp lvl D₀ s hsol hirr hclosed hXnd var hvX asg hvk
        hext _ (fun D' a' b' y => agr_restore csp lvl hirr n D' a' b' y) ?_
        (ordena_valores csp D asg var) D bt
        (fun w hw => (ordena_valores_mem csp D asg var w).mp hw)
        ((ordena_valores_mem csp D asg var (s var)).mpr (hs var hvX hvk))
        hs
      intro D' bt' hsD
      refine ih D' ((var, s var) :: asg) bt' ?_ ?_ ?_ hsD
      · have hlt := length_filter_keys_lt var (keys asg) csp.X hvX hvk
        have : keys ((var, s var) :: asg) = var :: keys asg := rfl
        rw [this]
        omega
      · intro p hp
        rcases List.mem_cons.mp hp with rfl | hp2
        · rfl
        · exact hext p hp2
      · intro k hk
        rcases List.mem_cons.mp hk with rfl | hk2
        · exact hvX
        · exact hkX k hk2

theorem asignacion_sound_sol (csp : ProblemaCSP) (D : DMap) (lvl : Nat)
    (hirr : ∀ x, x ∉ csp.N x)
    (hNsym : ∀ x y, y ∈ csp.N x ↔ x ∈ csp.N y)
    (hRsym : ∀ x vx y vy,
      csp.restriccion_binaria x vx y vy = csp.restriccion_binaria y vy x vx)
    (hclosed : ∀ x ∈ csp.X, ∀ y ∈ csp.N x, y ∈ csp.X)
    (a : Asg) (hsome : (asignacion_completa csp D lvl).1 = some a) :
    Solucion csp D (lookupV a) := by
  obtain ⟨hst, _hnd, hvals, hcomp⟩ :=
    agr_sound csp lvl D hirr (csp.X.length + 1) D [] 0 a
      (fun p hp => absurd hp (List.not_mem_nil p))
      (fun y => subset_rfl) List.Pairwise.nil List.nodup_nil hsome
  constructor
  · intro x hx
    have hxk : x ∈ keys a := (completaChk_keys csp a hcomp).1 x hx
    exact hvals (x, lookupV a x) (lookup_mem a x hxk)
  · exact stack_to_pairs csp a hirr hNsym hRsym hclosed hst hcomp

theorem nivel_iff (csp : ProblemaCSP) (D : DMap) (lvl : Nat)
    (hirr : ∀ x, x ∉ csp.N x)
    (hNsym : ∀ x y, y ∈ csp.N x ↔ x ∈ csp.N y)
    (hRsym : ∀ x vx y vy,
      csp.restriccion_binaria x vx y vy = csp.restriccion_binaria y vy x vx)
    (hclosed : ∀ x ∈ csp.X, ∀ y ∈ csp.N x, y ∈ csp.X)
    (hXnd : csp.X.Nodup) :
    (asignacion_completa csp D lvl).1.isSome = true ↔
      ∃ s, Solucion csp D s := by
  constructor
  · intro h
    cases hres : (asignacion_completa csp D lvl).1 with
    | none =>
      rw [hres] at h
      cases h
    | some a =>
      exact ⟨lookupV a, asignacion_sound_sol csp D lvl hirr hNsym hRsym hclosed a hres⟩
  · rintro ⟨s, hsol⟩
    unfold asignacion_completa
    refine agr_complete csp lvl D s hsol hirr hclosed hXnd
      (csp.X.length + 1) D [] 0 ?_ ?_ ?_ ?_
    · calc (csp.X.filter fun x => x ∉ keys ([] : Asg)).length
          ≤ csp.X.length := List.length_filter_le _ _
        _ < csp.X.length + 1 := Nat.lt_succ_self _
    · intro p hp
      cases hp
    · intro k hk
      cases hk
    · intro y hyX _
      exact hsol.1 y hyX

theorem bool_eq_of_iff {a b : Bool} (h : a = true ↔ b = true) : a = b := by
  cases a <;> cases b <;> simp_all

/-- C2: level equivalence of the backtracking entry point.  Under the
capability contract (no self-loops, symmetric neighbor map closed over the
duplicate-free variable list, symmetric predicate), `asignacion_completa`
at consistency levels 0, 1 and 2 agrees on the yes/no outcome: one returns
a complete assignment exactly when the others do, because each level's
outcome is equivalent to the existence of a solution within the initial
domains. -/
theorem claim_C2 (csp : ProblemaCSP) (D : DMap)
    (hirr : ∀ x, x ∉ csp.N x)
    (hNsym : ∀ x y, y ∈ csp.N x ↔ x ∈ csp.N y)
    (hRsym : ∀ x vx y vy,
      csp.restriccion_binaria x vx y vy = csp.restriccion_binaria y vy x vx)
    (hclosed : ∀ x ∈ csp.X, ∀ y ∈ csp.N x, y ∈ csp.X)
    (hXnd : csp.X.Nodup) :
    ((asignacion_completa csp D 0).1.isSome =
      (asignacion_completa csp D 1).1.isSome) ∧
    ((asignacion_completa csp D 1).1.isSome =
      (asignacion_completa csp D 2).1.isSome) := by
  have h0 := nivel_iff csp D 0 hirr hNsym hRsym hclosed hXnd
  have h1 := nivel_iff csp D 1 hirr hNsym hRsym hclosed hXnd
  have h2 := nivel_iff csp D 2 hirr hNsym hRsym hclosed hXnd
  exact ⟨bool_eq_of_iff (h0.trans h1.symm), bool_eq_of_iff (h1.trans h2.symm)⟩

/-- Witness for C2: the one-variable instance satisfies the contract
hypotheses and the three levels agree on it. -/
theorem claim_C2_witness :
    (∀ x, x ∉ c5csp.N x) ∧ c5csp.X.Nodup ∧
    (((asignacion_completa c5csp c5D 0).1.isSome =
        (asignacion_completa c5csp c5D 1).1.isSome) ∧
     ((asignacion_completa c5csp c5D 1).1.isSome =
        (asignacion_completa c5csp c5D 2).1.isSome)) :=
  ⟨c5csp_irrefl, by decide,
    claim_C2 c5csp c5D c5csp_irrefl
      (fun x y => by simp [c5csp])
      (fun x vx y vy => rfl)
      (fun x _ y hy => absurd hy (by simp [c5csp]))
      (by decide)⟩
